import Mathlib

/-!
# go-unixfs: archive writer, importer entry points and test utilities

A shallow embedding of

* `archive/tar/writer.go` (`Writer.WriteNode` and its helpers),
* `test/utils.go` (`ArrComp`),
* `importer/importer.go` (`BuildDagFromReader`, `BuildTrickleDagFromReader`),

followed by the theorems established about them.
-/

set_option autoImplicit false

namespace Unixfs

/-! ## Basic data -/

/-- A Go `[]byte`. -/
abbrev Bytes := List UInt8

/-- A Go `string`: a sequence of bytes. -/
abbrev GoString := List UInt8

/-- The bytes of an ASCII literal, used to write Go string literals. -/
def str (s : String) : GoString := s.toList.map (fun c => UInt8.ofNat c.toNat)

/-! ## test/utils.go -/

/-- Outcome of `ArrComp`: `nil`, one of its two formatted errors, or the run-time panic that an
out-of-range index `b[i]` would raise. -/
inductive ArrCompResult
  | nil
  | differInLength (la lb : Nat)
  | differAtIndex (i : Nat)
  | indexOutOfRange (i : Nat)
  deriving DecidableEq, Repr

/-- The `for i, v := range a` loop of `ArrComp`; `i` is the index of the head of the remaining
part of `a`. -/
def ArrComp.loop (b : Bytes) : Nat → Bytes → ArrCompResult
  | _, [] => .nil
  | i, v :: rest =>
    match b[i]? with
    | none => .indexOutOfRange i
    | some w => if v ≠ w then .differAtIndex i else ArrComp.loop b (i + 1) rest

/-- ArrComp checks if two byte slices are the same. -/
def ArrComp (a b : Bytes) : ArrCompResult :=
  if a.length ≠ b.length then .differInLength a.length b.length
  else ArrComp.loop b 0 a

/-! ## Go's `path.Join` (standard library, used by `writeDir`) -/

/-- The byte `'/'`. -/
def slash : UInt8 := 47

/-- The byte `'.'`. -/
def dot : UInt8 := 46

/-- The `..` backtracking of `path.Clean`: `out.w--` followed by
`for out.w > dotdot && out.index(out.w) != '/' { out.w-- }`.
The buffer is kept last byte first, so the head is the byte at index `out.w - 1`. -/
def Clean.backtrack (dotdot : Nat) : List UInt8 → List UInt8
  | [] => []
  | c :: rest => if dotdot < rest.length ∧ c ≠ slash then Clean.backtrack dotdot rest else rest

/-- The main loop of `path.Clean`. The second argument tells whether the loop is inside the inner
`for ; r < n && path[r] != '/'; r++` that copies a real path element; the third is `path[r:]`;
`out` is the output buffer, last byte first; `dotdot` is the index where `..` must stop. -/
def Clean.loop (rooted : Bool) : Bool → GoString → List UInt8 → Nat → List UInt8
  | _, [], out, _ => out
  | true, c :: rest, out, dotdot =>
    -- copy element
    if c = slash then Clean.loop rooted false rest out dotdot
    else Clean.loop rooted true rest (c :: out) dotdot
  | false, c :: rest, out, dotdot =>
    if c = slash then
      -- empty path element
      Clean.loop rooted false rest out dotdot
    else if c = dot ∧ (rest = [] ∨ rest.head? = some slash) then
      -- . element
      Clean.loop rooted false rest out dotdot
    else if c = dot ∧ rest.head? = some dot ∧ (rest.tail = [] ∨ rest.tail.head? = some slash) then
      -- .. element: remove to last /
      match rest with
      | [] => out
      | _ :: rest2 =>
        if dotdot < out.length then
          -- can backtrack
          Clean.loop rooted false rest2 (Clean.backtrack dotdot out) dotdot
        else if ¬ rooted then
          -- cannot backtrack, but not rooted, so append .. element.
          let out1 := if 0 < out.length then slash :: out else out
          Clean.loop rooted false rest2 (dot :: dot :: out1) (out1.length + 2)
        else
          Clean.loop rooted false rest2 out dotdot
    else
      -- real path element: add slash if needed, then copy element
      let out1 :=
        if (rooted ∧ out.length ≠ 1) ∨ (¬ rooted ∧ out.length ≠ 0) then slash :: out else out
      Clean.loop rooted true rest (c :: out1) dotdot

/-- Go's `path.Clean`: the shortest path name equivalent to `path` by purely lexical
processing. -/
def Clean (path : GoString) : GoString :=
  if path = [] then [dot]
  else
    let rooted : Bool := path.head? = some slash
    let out :=
      if rooted then Clean.loop rooted false path.tail [slash] 1
      else Clean.loop rooted false path [] 0
    -- Turn empty string into "."
    if out.length = 0 then [dot] else out.reverse

/-- Go's `path.Join` for two elements: empty elements are ignored, the rest are joined with
slashes and the result is cleaned; all elements empty gives the empty string. -/
def Join (a b : GoString) : GoString :=
  if a.length + b.length = 0 then []
  else if a = [] then Clean b
  else Clean (a ++ slash :: b)

/-- A plain path element: not empty, without a slash, and neither `.` nor `..`. -/
def PlainElem (n : GoString) : Prop :=
  n ≠ [] ∧ slash ∉ n ∧ n ≠ [dot] ∧ n ≠ [dot, dot]

/-- The elements of a relative path put together with one slash between neighbours. -/
def joinElems : List GoString → GoString
  | [] => []
  | [e] => e
  | e :: es => e ++ slash :: joinElems es

/-- The lexical shape of a cleaned path: the root `/`, the path `.`, a rooted path of plain
elements, or a relative path of `..` elements followed by plain elements; the elements are
joined by single slashes and there is no trailing slash. -/
def CleanShape (s : GoString) : Prop :=
  s = [slash] ∨ s = [dot] ∨
  (∃ es : List GoString, es ≠ [] ∧ (∀ e ∈ es, PlainElem e) ∧ s = slash :: joinElems es) ∨
  (∃ (k : Nat) (es : List GoString), (∀ e ∈ es, PlainElem e) ∧ k + es.length ≠ 0 ∧
    s = joinElems (List.replicate k [dot, dot] ++ es))

/-! ## Collaborators of the archive writer -/

/-- A content identifier. -/
abbrev Cid := Nat

/-- Go `error` values that can reach the caller of `WriteNode`. -/
inductive Error
  /-- The sentinel `ft.ErrUnrecognizedType`. -/
  | ErrUnrecognizedType
  /-- The value `fmt.Errorf("nodes of type %T are not supported in unixfs", nd)`. -/
  | notSupported (typeName : GoString)
  /-- An error produced by a collaborator (decoder, storage, reader, tar sink). -/
  | external (code : Nat)
  deriving DecidableEq, Repr

/-- The enumeration `upb.Data_DataType`; `Unrecognized` stands for every `int32` tag outside the
six declared ones. -/
inductive DataType
  | Raw
  | Directory
  | File
  | Metadata
  | Symlink
  | HAMTShard
  | Unrecognized (tag : Int)
  deriving DecidableEq, Repr

/-- What `WriteNode` reads from an `*ft.FSNode`: `Type()`, `Data()` and `FileSize()`. -/
structure FSNode where
  Type_ : DataType
  Data : Bytes
  FileSize : Nat
  deriving DecidableEq, Repr

/-- A `dms3ld.Link`. -/
structure Link where
  Name : GoString
  Size : Nat
  Cid : Cid
  deriving DecidableEq, Repr

/-- An `*mdag.ProtoNode`: its `Data()` and `Links()`. -/
structure ProtoNode where
  Data : Bytes
  Links : List Link
  deriving DecidableEq, Repr

/-- A `dms3ld.Node`, by dynamic type as the type switch of `WriteNode` sees it. -/
inductive Node
  | ProtoNode (nd : ProtoNode)
  | RawNode (RawData : Bytes)
  | Other (typeName : GoString)
  deriving DecidableEq, Repr

/-- The `Typeflag` values of `archive/tar` that the writer uses. -/
inductive Typeflag
  | TypeReg
  | TypeDir
  | TypeSymlink
  deriving DecidableEq, Repr

/-- The fields of `tar.Header` that the writer sets; `ModTime = none` is the zero time. -/
structure Header where
  Name : GoString
  Linkname : GoString := []
  Size : Int := 0
  Typeflag : Typeflag
  Mode : Nat
  ModTime : Option Int := none
  deriving DecidableEq, Repr

/-- A call made on the `*tar.Writer`. -/
inductive TarOp
  | WriteHeader (hdr : Header)
  | Write (b : Bytes)
  | Flush
  deriving DecidableEq, Repr

/-- The observable state of a `Writer`: the calls made so far on `TarW` and the identifiers
requested so far from `Dag`, both oldest first. -/
structure Writer where
  TarW : List TarOp
  Dag : List Cid
  deriving DecidableEq, Repr

/-- Modelled from the spec: `uio.Directory` is not among the sources. A directory enumerates its
child links in link order; `err` is the error, if any, that the enumeration itself raises after
the last link. -/
structure Directory where
  links : List Link
  err : Option Error

/-- Modelled from the spec: the DAG reader returned by `uio.NewPBFileReader` is not among the
sources. It produces a finite forward-only sequence of byte ranges, possibly cut short by an
error. -/
structure FileReader where
  chunks : List Bytes
  err : Option Error

/-- The collaborators of the writer, each as a deterministic function; the ones that perform
input or output may depend on everything the writer has done so far. -/
structure Env where
  /-- The decoder `ft.FSNodeFromBytes`. -/
  FSNodeFromBytes : Bytes → Except Error FSNode
  /-- The constructor `uio.NewDirectoryFromNode`. -/
  NewDirectoryFromNode : ProtoNode → Except Error Directory
  /-- The constructor `uio.NewPBFileReader`. -/
  NewPBFileReader : Writer → ProtoNode → FSNode → FileReader
  /-- The storage read `Dag.Get`. -/
  Get : Writer → Cid → Except Error Node
  /-- The error, if any, with which the tar sink answers a call. -/
  tarErr : Writer → TarOp → Option Error
  /-- The clock `time.Now`. -/
  Now : Writer → Int

/-- The conversion `int64(size)` of a `uint64`. -/
def toInt64 (size : Nat) : Int :=
  if size % 2 ^ 64 < 2 ^ 63 then (size % 2 ^ 64 : Nat) else (size % 2 ^ 64 : Nat) - 2 ^ 64

/-- A call on `w.TarW`: it is recorded and answered by the sink. -/
def Writer.call (env : Env) (w : Writer) (op : TarOp) : Writer × Option Error :=
  ({ w with TarW := w.TarW ++ [op] }, env.tarErr w op)

/-- Modelled from the spec: `ForEachLink` of `uio.Directory` is not among the sources. It applies
`f` to each child link in link order and stops at the first error; `none` is a callback that does
not return. -/
def Directory.ForEachLink (dir : Directory)
    (f : Writer → Link → Option (Writer × Option Error)) (w : Writer) :
    Option (Writer × Option Error) :=
  go dir.links w
where
  /-- The iteration over the remaining links. -/
  go : List Link → Writer → Option (Writer × Option Error)
    | [], w => some (w, dir.err)
    | l :: ls, w =>
      match f w l with
      | none => none
      | some (w1, some err) => some (w1, some err)
      | some (w1, none) => go ls w1

/-- Modelled from the spec: `WriteTo` of the DAG reader is not among the sources. It writes the
byte ranges to the sink in order, stops at the first failed write, and ends with the reader's own
error if there is one. -/
def FileReader.WriteTo (env : Env) (dagr : FileReader) (w : Writer) : Writer × Option Error :=
  go dagr.chunks w
where
  /-- The writes of the remaining byte ranges. -/
  go : List Bytes → Writer → Writer × Option Error
    | [], w => (w, dagr.err)
    | c :: cs, w =>
      match w.call env (.Write c) with
      | (w1, some err) => (w1, some err)
      | (w1, none) => go cs w1

/-! ## archive/tar/writer.go -/

def writeDirHeader (env : Env) (w : Writer) (fpath : GoString) : Writer × Option Error :=
  w.call env (.WriteHeader
    { Name := fpath, Typeflag := .TypeDir, Mode := 0o777, ModTime := some (env.Now w) })

def writeFileHeader (env : Env) (w : Writer) (fpath : GoString) (size : Nat) :
    Writer × Option Error :=
  w.call env (.WriteHeader
    { Name := fpath, Size := toInt64 size, Typeflag := .TypeReg, Mode := 0o644,
      ModTime := some (env.Now w) })

def writeSymlinkHeader (env : Env) (w : Writer) (target fpath : GoString) :
    Writer × Option Error :=
  w.call env (.WriteHeader
    { Name := fpath, Linkname := target, Mode := 0o777, Typeflag := .TypeSymlink })

/-- The function literal that `writeDir` passes to `ForEachLink`: fetch the child of a link, join
its name to the path and write it; `WriteNode` is the recursive call. -/
def writeDir.func1 (env : Env)
    (WriteNode : Writer → Node → GoString → Option (Writer × Option Error))
    (fpath : GoString) (w : Writer) (l : Link) : Option (Writer × Option Error) :=
  match env.Get w l.Cid with
  | .error err => some ({ w with Dag := w.Dag ++ [l.Cid] }, some err)
  | .ok child =>
    let npath := Join fpath l.Name
    WriteNode { w with Dag := w.Dag ++ [l.Cid] } child npath

/-- The method `Writer.writeDir`; `WriteNode` is the recursive call on a child. -/
def writeDir (env : Env) (WriteNode : Writer → Node → GoString → Option (Writer × Option Error))
    (w : Writer) (nd : ProtoNode) (fpath : GoString) : Option (Writer × Option Error) :=
  match env.NewDirectoryFromNode nd with
  | .error err => some (w, some err)
  | .ok dir =>
    match writeDirHeader env w fpath with
    | (w1, some err) => some (w1, some err)
    | (w1, none) => dir.ForEachLink (writeDir.func1 env WriteNode fpath) w1

/-- The method `Writer.writeFile`. -/
def writeFile (env : Env) (w : Writer) (nd : ProtoNode) (fsNode : FSNode) (fpath : GoString) :
    Writer × Option Error :=
  match writeFileHeader env w fpath fsNode.FileSize with
  | (w1, some err) => (w1, some err)
  | (w1, none) =>
    let dagr := env.NewPBFileReader w1 nd fsNode
    match dagr.WriteTo env w1 with
    | (w2, some err) => (w2, some err)
    | (w2, none) =>
      let (w3, _) := w2.call env .Flush
      (w3, none)

/-- WriteNode adds a node to the archive. The first argument bounds the depth of the recursion;
`none` is a call that needs more than that. The result is the writer afterwards and the returned
`error` (`none` for `nil`). -/
def WriteNode (env : Env) : Nat → Writer → Node → GoString → Option (Writer × Option Error)
  | 0, _, _, _ => none
  | fuel + 1, w, nd, fpath =>
    match nd with
    | .ProtoNode nd =>
      match env.FSNodeFromBytes nd.Data with
      | .error err => some (w, some err)
      | .ok fsNode =>
        match fsNode.Type_ with
        | .Metadata | .Directory | .HAMTShard => writeDir env (WriteNode env fuel) w nd fpath
        | .Raw | .File => some (writeFile env w nd fsNode fpath)
        | .Symlink => some (writeSymlinkHeader env w fsNode.Data fpath)
        | .Unrecognized _ => some (w, some .ErrUnrecognizedType)
    | .RawNode RawData =>
      match writeFileHeader env w fpath RawData.length with
      | (w1, some err) => some (w1, some err)
      | (w1, none) =>
        match w1.call env (.Write RawData) with
        | (w2, some err) => some (w2, some err)
        | (w2, none) =>
          let (w3, _) := w2.call env .Flush
          some (w3, none)
    | .Other typeName => some (w, some (.notSupported typeName))

/-! ## importer/importer.go and the collaborators it drives -/

/-- Modelled from the spec: the node types of the DAG are not among the sources. A raw leaf holds
the exact chunk bytes; a file node holds the declared total file size, optional inline data and
the ordered child links, each with the number of file bytes it contributes. -/
inductive DagNode
  | RawLeaf (data : Bytes)
  | FileNode (filesize : Nat) (data : Bytes) (links : List Link)
  deriving DecidableEq, Repr

/-- Modelled from the spec: the file bytes a node stands for, as it declares them. -/
def DagNode.size : DagNode → Nat
  | .RawLeaf data => data.length
  | .FileNode filesize _ _ => filesize

/-- Modelled from the spec: the storage service is not among the sources. It holds the nodes
put so far; the identifier of a node is the position of its content, so that identical content
has the identical identifier. `putErr` is the write failure, if any, with which the service
answers a put, given what it holds and the node. -/
structure Store where
  nodes : List DagNode
  putErr : List DagNode → DagNode → Option Error

/-- Modelled from the spec: `put(node) -> id` of the storage service; a write failure is
returned to the caller and leaves nothing stored. -/
def Store.put (ds : Store) (nd : DagNode) : Except Error (Store × Cid) :=
  match ds.putErr ds.nodes nd with
  | some err => .error err
  | none =>
    if ds.nodes.indexOf nd < ds.nodes.length then .ok (ds, ds.nodes.indexOf nd)
    else .ok ({ ds with nodes := ds.nodes ++ [nd] }, ds.nodes.length)

/-- Modelled from the spec: `get(id) -> node` of the storage service; `none` is the not-found
error for an unknown identifier. -/
def Store.get (ds : Store) (c : Cid) : Option DagNode := ds.nodes[c]?

/-- Modelled from the spec: the chunker is not among the sources. It delivers a finite sequence
of byte ranges and then ends, cleanly or with the read error of the underlying source. -/
structure Splitter where
  chunks : List Bytes
  err : Option Error

/-- The fields of `h.DagBuilderParams` that `importer.go` sets; the raw-leaf switch is left at
its zero value there, so leaves are framed file nodes. -/
structure DagBuilderParams where
  Dagserv : Store
  Maxlinks : Nat

/-- Modelled from the spec: the DAG builder helper is not among the sources. It owns the
configuration and the storage-write path and pulls the byte ranges of the chunker. -/
structure DagBuilderHelper where
  dserv : Store
  spl : Splitter
  maxlinks : Nat

/-- Modelled from the spec: `DagBuilderParams.New` wraps a chunker into a helper. -/
def DagBuilderParams.New (dbp : DagBuilderParams) (spl : Splitter) : DagBuilderHelper :=
  ⟨dbp.Dagserv, spl, dbp.Maxlinks⟩

/-- Modelled from the spec: the node builder. With raw leaves off it produces, for one byte
range, a file node whose payload is the chunk framed with its declared size, without children. -/
def newLeaf (chunk : Bytes) : DagNode := .FileNode chunk.length chunk []

/-- Modelled from the spec: a node in the hands of the builder, with the link to it: its
identifier and the file bytes it contributes. -/
structure Child where
  node : DagNode
  link : Link

/-- Modelled from the spec: writing a node to storage gives the link to it; a storage failure
aborts. -/
def addNode (ds : Store) (nd : DagNode) : Except Error (Store × Child) :=
  match ds.put nd with
  | .error err => .error err
  | .ok (ds1, c) => .ok (ds1, ⟨nd, ⟨[], nd.size, c⟩⟩)

/-- Modelled from the spec: finalizing an internal node over the given children: it is written
to storage with its cumulative file size. -/
def finalize (ds : Store) (children : List Child) : Except Error (Store × Child) :=
  addNode ds (.FileNode (children.map (fun c => c.link.Size)).sum []
    (children.map (fun c => c.link)))

/-- Modelled from the spec: the balanced layout appends a child to the open node of a level
(the list holds the open nodes, lowest level first). A node that reaches the fan-out bound is
finalized and appended as a child of the next level up, which is created when it is missing. -/
def Balanced.push (maxlinks : Nat) : List (List Child) → Child → Store →
    Except Error (List (List Child) × Store)
  | [], c, ds => .ok ([[c]], ds)
  | cur :: up, c, ds =>
    if maxlinks ≤ (cur ++ [c]).length then
      match finalize ds (cur ++ [c]) with
      | .error err => .error err
      | .ok (ds1, parent) =>
        match Balanced.push maxlinks up parent ds1 with
        | .error err => .error err
        | .ok (up1, ds2) => .ok ([] :: up1, ds2)
    else .ok ((cur ++ [c]) :: up, ds)

/-- Modelled from the spec: the balanced layout pulls the byte ranges in input order and appends
the leaf of each to the lowest level. -/
def Balanced.fill (maxlinks : Nat) : List Bytes → List (List Child) → Store →
    Except Error (List (List Child) × Store)
  | [], stack, ds => .ok (stack, ds)
  | chunk :: spl, stack, ds =>
    match addNode ds (newLeaf chunk) with
    | .error err => .error err
    | .ok (ds1, leaf) =>
      match Balanced.push maxlinks stack leaf ds1 with
      | .error err => .error err
      | .ok (stack1, ds2) => Balanced.fill maxlinks spl stack1 ds2

/-- Modelled from the spec: at the end of the input the balanced layout closes the open nodes
from the lowest level up: an open node with children is finalized and appended to the next
level; at the top level a single child is the root itself, without a wrapping node. `carry` is
the node finalized one level below. -/
def Balanced.finish : Option Child → List (List Child) → Store →
    Except Error (Option Child × Store)
  | carry, [], ds => .ok (carry, ds)
  | carry, [cur], ds =>
    match cur ++ carry.toList with
    | [] => .ok (none, ds)
    | [c] => .ok (some c, ds)
    | cs =>
      match finalize ds cs with
      | .error err => .error err
      | .ok (ds1, root) => .ok (some root, ds1)
  | carry, cur :: up, ds =>
    match cur ++ carry.toList with
    | [] => Balanced.finish none up ds
    | cs =>
      match finalize ds cs with
      | .error err => .error err
      | .ok (ds1, parent) => Balanced.finish (some parent) up ds1

/-- Modelled from the spec: `bal.Layout` is not among the sources. It builds the balanced tree
over the leaves and returns the root node, with the storage as the build leaves it; empty input
gives a single empty leaf; a read error of the chunker or a write failure of the storage aborts
the build. -/
def Balanced.Layout (db : DagBuilderHelper) : Except Error (DagNode × Store) :=
  match Balanced.fill db.maxlinks db.spl.chunks [] db.dserv with
  | .error err => .error err
  | .ok (stack, ds1) =>
    match db.spl.err with
    | some err => .error err
    | none =>
      match Balanced.finish none stack ds1 with
      | .error err => .error err
      | .ok (some root, ds2) => .ok (root.node, ds2)
      | .ok (none, ds2) =>
        match addNode ds2 (newLeaf []) with
        | .error err => .error err
        | .ok (ds3, leaf) => .ok (leaf.node, ds3)

/-- Modelled from the spec: the direct leaves of a trickle node: up to `n` byte ranges, each
written as a leaf. The result is the children, the ranges left and the storage. -/
def Trickle.leaves : Nat → List Bytes → Store → Except Error (List Child × List Bytes × Store)
  | 0, spl, ds => .ok ([], spl, ds)
  | _, [], ds => .ok ([], [], ds)
  | n + 1, chunk :: spl, ds =>
    match addNode ds (newLeaf chunk) with
    | .error err => .error err
    | .ok (ds1, leaf) =>
      match Trickle.leaves n spl ds1 with
      | .error err => .error err
      | .ok (cs, rest, ds2) => .ok (leaf :: cs, rest, ds2)

/-- Modelled from the spec: up to `n` complete subtrees of one layer, each built by `build` and
finalized, as long as input remains. -/
def Trickle.subtrees
    (build : List Bytes → Store → Except Error (List Child × List Bytes × Store)) :
    Nat → List Bytes → Store → Except Error (List Child × List Bytes × Store)
  | 0, spl, ds => .ok ([], spl, ds)
  | _, [], ds => .ok ([], [], ds)
  | n + 1, chunk :: spl, ds =>
    match build (chunk :: spl) ds with
    | .error err => .error err
    | .ok (sub, rest, ds1) =>
      match finalize ds1 sub with
      | .error err => .error err
      | .ok (ds2, child) =>
        match Trickle.subtrees build n rest ds2 with
        | .error err => .error err
        | .ok (cs, rest1, ds3) => .ok (child :: cs, rest1, ds3)

/-- Modelled from the spec: the children of a trickle node through layer `layer`: `maxlinks`
direct leaves, then for each further layer up to `maxlinks` complete subtrees of the previous
layer. -/
def Trickle.fill (maxlinks : Nat) :
    Nat → List Bytes → Store → Except Error (List Child × List Bytes × Store)
  | 0, spl, ds => Trickle.leaves maxlinks spl ds
  | layer + 1, spl, ds =>
    match Trickle.fill maxlinks layer spl ds with
    | .error err => .error err
    | .ok (low, rest, ds1) =>
      match Trickle.subtrees (Trickle.fill maxlinks layer) maxlinks rest ds1 with
      | .error err => .error err
      | .ok (high, rest1, ds2) => .ok (low ++ high, rest1, ds2)

/-- Modelled from the spec: `trickle.Layout` is not among the sources. The root advances from
layer to layer until the input is used up; as every layer that is started takes at least one
byte range, one layer per range is enough. It returns the root node, with the storage as the
build leaves it; a read error of the chunker or a write failure of the storage aborts the
build. -/
def Trickle.Layout (db : DagBuilderHelper) : Except Error (DagNode × Store) :=
  match Trickle.fill db.maxlinks db.spl.chunks.length db.spl.chunks db.dserv with
  | .error err => .error err
  | .ok (cs, _, ds1) =>
    match db.spl.err with
    | some err => .error err
    | none =>
      match finalize ds1 cs with
      | .error err => .error err
      | .ok (ds2, root) => .ok (root.node, ds2)

/-- Modelled from the spec: the DAG reader concatenates, in link order, what `rd` reads from
the child of each link; a child that storage does not hold, or one that does not give the number
of bytes its link declares, aborts the read. -/
def DagReader.readLinks (ds : Store) (rd : DagNode → Option Bytes) : List Link → Option Bytes
  | [] => some []
  | l :: ls =>
    match ds.get l.Cid with
    | none => none
    | some child =>
      match rd child with
      | none => none
      | some head =>
        if head.length ≠ l.Size then none
        else
          match DagReader.readLinks ds rd ls with
          | none => none
          | some tail => some (head ++ tail)

/-- Modelled from the spec: the DAG reader is not among the sources. Depth first and left to
right, a raw leaf or a file node without children gives its payload in full, an internal file
node the concatenation of its children; a declared size that does not match the payload, or
the sizes of the links, aborts the read. The first argument bounds the depth; `none` is a failed
read or one that needs more depth. -/
def DagReader.read (ds : Store) : Nat → DagNode → Option Bytes
  | _, .RawLeaf data => some data
  | _, .FileNode filesize data [] => if filesize ≠ data.length then none else some data
  | 0, .FileNode _ _ (_ :: _) => none
  | fuel + 1, .FileNode filesize _ (l :: ls) =>
    if filesize ≠ ((l :: ls).map (fun l => l.Size)).sum then none
    else DagReader.readLinks ds (DagReader.read ds fuel) (l :: ls)

/-- Modelled from the spec: reading the whole byte stream below a root node, as a reader made
by `uio.NewDagReader` for the node and the storage does. -/
def DagReader.ReadAll (ds : Store) (fuel : Nat) (root : DagNode) : Option Bytes :=
  DagReader.read ds fuel root

/-- BuildDagFromReader creates a DAG given a DAGService and a Splitter implementation, using a
Balanced layout. `DefaultLinksPerBlock` is the constant of package `helpers`, which is not among
the sources. The result is the root node or the error, with the storage after the build. -/
def BuildDagFromReader (DefaultLinksPerBlock : Nat) (ds : Store) (spl : Splitter) :
    Except Error (DagNode × Store) :=
  let dbp : DagBuilderParams := { Dagserv := ds, Maxlinks := DefaultLinksPerBlock }
  Balanced.Layout (dbp.New spl)

/-- BuildTrickleDagFromReader creates a DAG given a DAGService and a Splitter implementation,
using a Trickle Layout. -/
def BuildTrickleDagFromReader (DefaultLinksPerBlock : Nat) (ds : Store) (spl : Splitter) :
    Except Error (DagNode × Store) :=
  let dbp : DagBuilderParams := { Dagserv := ds, Maxlinks := DefaultLinksPerBlock }
  Trickle.Layout (dbp.New spl)

/-- The writes of the storage never fail, as with the in-memory storage of the tests. -/
def Store.NeverFails (ds : Store) : Prop := ∀ nodes nd, ds.putErr nodes nd = none

/-- Storage `ds1` is `ds` after further puts: it answers puts alike and holds everything that
`ds` holds, under the same identifiers. -/
def Store.Le (ds ds1 : Store) : Prop :=
  ds1.putErr = ds.putErr ∧
  ∀ (c : Cid) (nd : DagNode), ds.get c = some nd → ds1.get c = some nd

/-- The children behind `links` can be read from `ds` and give, in link order, the bytes `b`. -/
def Reads (ds : Store) (links : List Link) (b : Bytes) : Prop :=
  ∃ fuel, DagReader.readLinks ds (DagReader.read ds fuel) links = some b

/-- The children are in storage under the identifiers of their links and read, in order, as the
bytes `b`. -/
def ChildrenRead (ds : Store) (cs : List Child) (b : Bytes) : Prop :=
  (∀ c ∈ cs, ds.get c.link.Cid = some c.node) ∧ Reads ds (cs.map (fun c => c.link)) b

/-- The open nodes of the balanced layout stand for the bytes `b`: the higher levels hold the
earlier bytes. -/
def StackReads (ds : Store) : List (List Child) → Bytes → Prop
  | [], b => b = []
  | cur :: up, b => ∃ bu bc, StackReads ds up bu ∧ ChildrenRead ds cur bc ∧ b = bu ++ bc

/-- A step of a layout that, over a storage that never fails, succeeds, takes byte ranges from
the front of the input, at least `k` of them or all when fewer are left, and returns children
that read back as exactly the ranges taken, keeping what storage held. -/
def Builds (f : List Bytes → Store → Except Error (List Child × List Bytes × Store))
    (k : Nat) : Prop :=
  ∀ (spl : List Bytes) (ds : Store), ds.NeverFails →
    ∃ (cs : List Child) (rest : List Bytes) (ds1 : Store) (used : List Bytes),
      f spl ds = .ok (cs, rest, ds1) ∧ spl = used ++ rest ∧
      ChildrenRead ds1 cs used.flatten ∧ ds.Le ds1 ∧
      rest.length + min k spl.length ≤ spl.length

/-! ## Observations on a run of the writer -/

/-- An archive entry: a header and the body bytes written after it. -/
structure Entry where
  hdr : Header
  body : Bytes
  deriving DecidableEq, Repr

/-- The body bytes written before the next header. -/
def bodyOf : List TarOp → Bytes
  | [] => []
  | .Write b :: ops => b ++ bodyOf ops
  | .Flush :: ops => bodyOf ops
  | .WriteHeader _ :: _ => []

/-- The archive entries that a sequence of calls on the tar writer makes up: one entry per
`WriteHeader`, with the bytes of the `Write` calls that follow it. -/
def entries : List TarOp → List Entry
  | [] => []
  | .WriteHeader hdr :: ops => ⟨hdr, bodyOf ops⟩ :: entries ops
  | .Write _ :: ops => entries ops
  | .Flush :: ops => entries ops

/-- A sequence of calls on the tar writer that does not start inside the body of an entry: it is
empty or starts with a header. -/
def HeaderFirst : List TarOp → Prop
  | [] => True
  | .WriteHeader _ :: _ => True
  | _ => False

/-- The sink accepts each call of a sequence made one after the other from the state `w`. -/
def CallsAccepted (env : Env) : Writer → List TarOp → Prop
  | _, [] => True
  | w, op :: ops => env.tarErr w op = none ∧ CallsAccepted env ⟨w.TarW ++ [op], w.Dag⟩ ops

/-- The tar sink follows `archive/tar` in refusing the header of a regular file with a negative
size. -/
def Env.RefusesNegativeSize (env : Env) : Prop :=
  ∀ (w : Writer) (hdr : Header), hdr.Typeflag = .TypeReg → hdr.Size < 0 →
    env.tarErr w (.WriteHeader hdr) ≠ none

/-- The child links that `writeDir` enumerates for a node: those of the directory built from it,
none when the node is not a protobuf node or no directory can be built. -/
def dirLinks (env : Env) : Node → List Link
  | .ProtoNode nd =>
    match env.NewDirectoryFromNode nd with
    | .ok dir => dir.links
    | .error _ => []
  | _ => []

/-- The storage holds no cycle below the directories: `rank` decreases from a directory to every
child that can be fetched for one of its links. -/
def Env.Ranked (env : Env) (rank : Node → Nat) : Prop :=
  ∀ (w : Writer) (nd : Node) (l : Link) (child : Node),
    l ∈ dirLinks env nd → env.Get w l.Cid = .ok child → rank child < rank nd

/-- The per-child call sequences of a directory, in the words of the specification: for each
link in link order, as long as the child can be fetched and the previous child was written
without error, the calls that `WriteNode` makes on the tar writer for that child at the joined
path. -/
def childSegments (env : Env) (fuel : Nat) (fpath : GoString) : List Link → Writer →
    List (List TarOp)
  | [], _ => []
  | l :: ls, w =>
    match env.Get w l.Cid with
    | .error _ => []
    | .ok child =>
      match WriteNode env fuel { w with Dag := w.Dag ++ [l.Cid] } child (Join fpath l.Name) with
      | none => []
      | some (w1, some _) => [w1.TarW.drop w.TarW.length]
      | some (w1, none) => w1.TarW.drop w.TarW.length :: childSegments env fuel fpath ls w1

/-! ## Concrete collaborators, used to run the writer on examples -/

/-- A toy node encoding: a kind tag, the number `k` of size bytes, the declared file size in `k`
bytes (most significant first), then the payload. -/
def demoDecode : Bytes → Except Error FSNode
  | tag :: k :: rest =>
    let ty : DataType :=
      if tag = 0 then .Raw else if tag = 1 then .Directory else if tag = 2 then .File
      else if tag = 3 then .Metadata else if tag = 4 then .Symlink else if tag = 5 then .HAMTShard
      else .Unrecognized tag.toNat
    .ok { Type_ := ty, Data := rest.drop k.toNat,
          FileSize := (rest.take k.toNat).foldl (fun n b => 256 * n + b.toNat) 0 }
  | _ => .error (.external 1)

/-- The bytes still owed to the current entry of a tar writer after a sequence of calls: a header
announces `Size` bytes and every write pays some of them off. -/
def tarRemaining (ops : List TarOp) : Int :=
  ops.foldl (fun nb op =>
    match op with
    | .WriteHeader hdr => hdr.Size
    | .Write b => nb - min (b.length : Int) nb
    | .Flush => nb) 0

/-- Rules of `archive/tar`, as far as the examples meet them: a header is refused when its size
is negative, when its name or link name holds a NUL byte, or while the current entry is not fully
written; a write is refused when it exceeds the announced size; a flush is refused while the
current entry is not fully written. -/
def tarRules (w : Writer) : TarOp → Option Error
  | .WriteHeader hdr =>
    if hdr.Size < 0 ∨ (0 : UInt8) ∈ hdr.Name ∨ (0 : UInt8) ∈ hdr.Linkname then some (.external 6)
    else if 0 < tarRemaining w.TarW then some (.external 2) else none
  | .Write b => if tarRemaining w.TarW < b.length then some (.external 3) else none
  | .Flush => if 0 < tarRemaining w.TarW then some (.external 2) else none

/-- A storage of three nodes: at 1 a directory with the file 2 under the name `f.txt`, at 2 a
file of content `c`, at 3 a symlink to `target`; other identifiers are not found. -/
def demoStore (c : Bytes) : Cid → Except Error Node
  | 1 => .ok (.ProtoNode ⟨[1, 0], [⟨str "f.txt", 0, 2⟩]⟩)
  | 2 => .ok (.ProtoNode ⟨2 :: 1 :: UInt8.ofNat c.length :: c, []⟩)
  | 3 => .ok (.ProtoNode ⟨4 :: 0 :: str "target", []⟩)
  | _ => .error (.external 4)

/-- A directory constructor for the toy encoding: it lists the links of a node of kind Directory
or HAMTShard and rejects every other node. -/
def demoNewDirectory (nd : ProtoNode) : Except Error Directory :=
  match demoDecode nd.Data with
  | .error err => .error err
  | .ok fsNode =>
    if fsNode.Type_ = .Directory ∨ fsNode.Type_ = .HAMTShard then .ok ⟨nd.Links, none⟩
    else .error (.external 5)

/-- The environment of the examples: the toy encoding, directories that list the links of
their node, a reader that yields the inline payload as one byte range, the storage
`demoStore c`, and a tar sink answering with `sink`. -/
def demoEnv (c : Bytes) (sink : Writer → TarOp → Option Error) : Env where
  FSNodeFromBytes := demoDecode
  NewDirectoryFromNode := demoNewDirectory
  NewPBFileReader := fun _ _ fsNode => ⟨if fsNode.Data = [] then [] else [fsNode.Data], none⟩
  Get := fun _ cid => demoStore c cid
  tarErr := sink
  Now := fun w => w.TarW.length

/-- The root of the example tree: a directory with the subdirectory `b` (node 1) and the
symlink `link` (node 3). -/
def demoRoot : ProtoNode :=
  ⟨[1, 0], [⟨str "b", 0, 1⟩, ⟨str "link", 0, 3⟩]⟩

/-- A rank for the nodes over `demoStore`: a link to the directory 1 counts 2, any other link
counts 1. -/
def demoRank : Node → Nat
  | .ProtoNode nd => (nd.Links.map (fun l => if l.Cid = 1 then 2 else 1)).sum
  | _ => 0

/-! ## Theorems: test/utils.go -/

/-- The loop of `ArrComp`, started at index `k` on a remainder `a` as long as the part of `b`
from `k` on: it ends in `nil` when the two agree, and otherwise at the first index where they
differ; it never indexes `b` out of range. -/
theorem ArrComp.loop_spec (b : Bytes) :
    ∀ (a : Bytes) (k : Nat), k + a.length = b.length →
      (a = b.drop k ∧ ArrComp.loop b k a = .nil) ∨
      (∃ i, ArrComp.loop b k a = .differAtIndex (k + i) ∧ i < a.length ∧
        a[i]? ≠ b[k + i]? ∧ ∀ j, j < i → a[j]? = b[k + j]?) := by
  intro a
  induction a with
  | nil =>
    intro k hk
    left
    refine ⟨?_, rfl⟩
    simp at hk
    simp [hk]
  | cons v rest ih =>
    intro k hk
    have hlen : k < b.length := by simp at hk; omega
    have hget : b[k]? = some b[k] := List.getElem?_eq_getElem hlen
    have hdrop : b.drop k = b[k] :: b.drop (k + 1) := List.drop_eq_getElem_cons hlen
    by_cases hv : v = b[k]
    · have hk1 : (k + 1) + rest.length = b.length := by simp at hk; omega
      have hstep : ArrComp.loop b k (v :: rest) = ArrComp.loop b (k + 1) rest := by
        simp [ArrComp.loop, hget, hv]
      rcases ih (k + 1) hk1 with ⟨heq, hnil⟩ | ⟨i, hres, hi, hne, hlt⟩
      · left
        exact ⟨by rw [hdrop, hv, heq], by rw [hstep, hnil]⟩
      · right
        refine ⟨i + 1, ?_, by simp; omega, ?_, ?_⟩
        · rw [hstep, hres]; congr 1; omega
        · have : k + (i + 1) = k + 1 + i := by omega
          rw [this]; simpa using hne
        · intro j hj
          cases j with
          | zero => simp [hget, hv]
          | succ j =>
            have : k + (j + 1) = k + 1 + j := by omega
            rw [this]; simpa using hlt j (by omega)
    · right
      refine ⟨0, ?_, by simp, ?_, ?_⟩
      · simp [ArrComp.loop, hget, hv]
      · simp [hget, hv]
      · intro j hj; omega

/-- C10: `ArrComp a b` is `nil` exactly when `a = b`; with different lengths it is the length
error (whatever the elements are); with equal lengths and different contents it is the index error
at the smallest index where the two differ; and the access `b[i]` is never out of range. -/
theorem ArrComp_spec (a b : Bytes) :
    (ArrComp a b = .nil ↔ a = b) ∧
    (a.length ≠ b.length → ArrComp a b = .differInLength a.length b.length) ∧
    (a.length = b.length → a ≠ b →
      ∃ i, ArrComp a b = .differAtIndex i ∧ i < a.length ∧ a[i]? ≠ b[i]? ∧
        ∀ j, j < i → a[j]? = b[j]?) ∧
    (∀ i, ArrComp a b ≠ .indexOutOfRange i) := by
  by_cases hlen : a.length = b.length
  · have hA : ArrComp a b = ArrComp.loop b 0 a := by simp [ArrComp, hlen]
    rcases ArrComp.loop_spec b a 0 (by simpa using hlen) with ⟨heq, hnil⟩ | ⟨i, hres, hi, hne, hlt⟩
    · have hab : a = b := by simpa using heq
      refine ⟨?_, fun h => absurd hlen h, fun _ h => absurd hab h, ?_⟩
      · rw [hA, hnil]; simp [hab]
      · intro i; rw [hA, hnil]; simp
    · have hab : a ≠ b := by
        intro h; subst h; simp at hne
      refine ⟨?_, fun h => absurd hlen h, fun _ _ => ⟨i, ?_, hi, ?_, ?_⟩, ?_⟩
      · rw [hA, hres]; simp [hab]
      · rw [hA, hres]; simp
      · simpa using hne
      · intro j hj; simpa using hlt j hj
      · intro j; rw [hA, hres]; simp
  · have hA : ArrComp a b = .differInLength a.length b.length := by simp [ArrComp, hlen]
    have hab : a ≠ b := by intro h; subst h; exact hlen rfl
    refine ⟨?_, fun _ => hA, fun h => absurd h hlen, ?_⟩
    · rw [hA]; simp [hab]
    · intro i; rw [hA]; simp

/-! ## Theorems: archive/tar/writer.go -/

theorem Writer.call_eq (env : Env) (w : Writer) (op : TarOp) :
    w.call env op = (⟨w.TarW ++ [op], w.Dag⟩, env.tarErr w op) := rfl

/-- When the sink accepts the writes of all byte ranges, the reader's `WriteTo` makes exactly
these calls, in order, and ends with the reader's own error. -/
theorem FileReader.WriteTo_go_accepted (env : Env) (dagr : FileReader) :
    ∀ (cs : List Bytes) (w : Writer) (rest : List TarOp),
      CallsAccepted env w (cs.map TarOp.Write ++ rest) →
        FileReader.WriteTo.go env dagr cs w = (⟨w.TarW ++ cs.map TarOp.Write, w.Dag⟩, dagr.err) ∧
        CallsAccepted env ⟨w.TarW ++ cs.map TarOp.Write, w.Dag⟩ rest := by
  intro cs
  induction cs with
  | nil => intro w rest h; simpa [FileReader.WriteTo.go] using h
  | cons c cs ih =>
    intro w rest h
    simp only [List.map_cons, List.cons_append, CallsAccepted] at h
    obtain ⟨h1, h2⟩ := ih ⟨w.TarW ++ [.Write c], w.Dag⟩ rest h.2
    simp only [FileReader.WriteTo.go, Writer.call_eq, h.1, h1, List.map_cons]
    simp only [List.append_assoc, List.singleton_append] at h2 ⊢
    exact ⟨trivial, h2⟩

theorem tarRules_refuses_negative (c : Bytes) : (demoEnv c tarRules).RefusesNegativeSize := by
  intro w hdr _ h
  simp [demoEnv, tarRules, h]

/-- Whatever the sink answers, the reader's `WriteTo` only appends calls to the tar writer and
requests nothing from storage through the writer. -/
theorem FileReader.WriteTo_go_append (env : Env) (dagr : FileReader) :
    ∀ (cs : List Bytes) (w : Writer),
      ∃ ops, (FileReader.WriteTo.go env dagr cs w).1.TarW = w.TarW ++ ops := by
  intro cs
  induction cs with
  | nil => intro w; exact ⟨[], by simp [FileReader.WriteTo.go]⟩
  | cons c cs ih =>
    intro w
    simp only [FileReader.WriteTo.go, Writer.call_eq]
    cases h : env.tarErr w (.Write c) with
    | some err => exact ⟨[.Write c], rfl⟩
    | none =>
      obtain ⟨ops, hops⟩ := ih ⟨w.TarW ++ [.Write c], w.Dag⟩
      exact ⟨.Write c :: ops, by simp [hops]⟩

theorem bodyOf_writes (cs : List Bytes) : bodyOf (cs.map TarOp.Write ++ [.Flush]) = cs.flatten := by
  induction cs with
  | nil => simp [bodyOf]
  | cons c cs ih => simp [bodyOf, ih]

theorem entries_writes (cs : List Bytes) : entries (cs.map TarOp.Write ++ [.Flush]) = [] := by
  induction cs with
  | nil => simp [entries]
  | cons c cs ih => simp [entries, ih]

theorem toInt64_of_lt (n : Nat) (h : n < 2 ^ 63) : toInt64 n = n := by
  have h1 : n % 2 ^ 64 = n := Nat.mod_eq_of_lt (by omega)
  unfold toInt64
  rw [h1, if_pos h]

/-- C1: a protobuf node whose decoded kind is none of the six declared ones makes `WriteNode`
return `ErrUnrecognizedType` with the writer unchanged: no call on the tar writer and no request
to storage. -/
theorem WriteNode_unrecognized (env : Env) (fuel : Nat) (w : Writer) (nd : ProtoNode)
    (fpath : GoString) (fsNode : FSNode) (tag : Int)
    (hdec : env.FSNodeFromBytes nd.Data = .ok fsNode)
    (hty : fsNode.Type_ = .Unrecognized tag) :
    WriteNode env (fuel + 1) w (.ProtoNode nd) fpath = some (w, some .ErrUnrecognizedType) := by
  simp [WriteNode, hdec, hty]

theorem WriteNode_unrecognized_witness :
    WriteNode (demoEnv [] tarRules) 1 ⟨[], []⟩ (.ProtoNode ⟨[9, 0], []⟩) (str "x")
      = some (⟨[], []⟩, some .ErrUnrecognizedType) :=
  WriteNode_unrecognized (demoEnv [] tarRules) 0 ⟨[], []⟩ ⟨[9, 0], []⟩ (str "x")
    ⟨.Unrecognized 9, [], 0⟩ 9 rfl rfl

/-- C4: for a protobuf node of kind Symlink, `WriteNode` makes exactly one call on the tar
writer, a header of type symlink with `Name = fpath` and `Linkname` the payload, which makes up
one entry without body; it requests nothing from storage, and its result is the sink's answer to
that header. -/
theorem WriteNode_symlink (env : Env) (fuel : Nat) (w : Writer) (nd : ProtoNode)
    (fpath : GoString) (fsNode : FSNode)
    (hdec : env.FSNodeFromBytes nd.Data = .ok fsNode)
    (hty : fsNode.Type_ = .Symlink) :
    WriteNode env (fuel + 1) w (.ProtoNode nd) fpath =
      some (⟨w.TarW ++ [.WriteHeader
              { Name := fpath, Linkname := fsNode.Data, Mode := 0o777, Typeflag := .TypeSymlink }],
             w.Dag⟩,
            env.tarErr w (.WriteHeader
              { Name := fpath, Linkname := fsNode.Data, Mode := 0o777, Typeflag := .TypeSymlink }))
    ∧ entries [.WriteHeader
        { Name := fpath, Linkname := fsNode.Data, Mode := 0o777, Typeflag := .TypeSymlink }]
      = [⟨{ Name := fpath, Linkname := fsNode.Data, Mode := 0o777, Typeflag := .TypeSymlink },
          []⟩] := by
  constructor
  · simp [WriteNode, hdec, hty, writeSymlinkHeader, Writer.call_eq]
  · simp [entries, bodyOf]

theorem WriteNode_symlink_witness :
    WriteNode (demoEnv [] tarRules) 1 ⟨[], []⟩ (.ProtoNode ⟨4 :: 0 :: str "target", []⟩) (str "l")
      = some (⟨[.WriteHeader { Name := str "l", Linkname := str "target", Mode := 0o777,
                               Typeflag := .TypeSymlink }], []⟩, none) :=
  (WriteNode_symlink (demoEnv [] tarRules) 0 ⟨[], []⟩ ⟨4 :: 0 :: str "target", []⟩ (str "l")
    ⟨.Symlink, str "target", 0⟩ rfl rfl).1

/-- C3: when the sink, which like `archive/tar` refuses a negative size, accepts every call and
the reader ends without error, `WriteNode` on a protobuf node of kind File or Raw makes up exactly
one regular-file entry named `fpath` whose header `Size` is `fsNode.FileSize()` (a `uint64`) and
whose body is the reader's output; on a `RawNode` the entry has `Size = len(RawData())` and body
`RawData()`, so header size and body length agree. -/
theorem WriteNode_file_entry (env : Env) (fuel : Nat) (w : Writer) (fpath : GoString)
    (hneg : env.RefusesNegativeSize) :
    (∀ (nd : ProtoNode) (fsNode : FSNode) (hdr : Header) (dagr : FileReader),
      env.FSNodeFromBytes nd.Data = .ok fsNode →
      (fsNode.Type_ = .File ∨ fsNode.Type_ = .Raw) →
      fsNode.FileSize < 2 ^ 64 →
      hdr = { Name := fpath, Size := toInt64 fsNode.FileSize, Typeflag := .TypeReg,
              Mode := 0o644, ModTime := some (env.Now w) } →
      dagr = env.NewPBFileReader ⟨w.TarW ++ [.WriteHeader hdr], w.Dag⟩ nd fsNode →
      dagr.err = none →
      CallsAccepted env w (.WriteHeader hdr :: (dagr.chunks.map TarOp.Write ++ [.Flush])) →
        WriteNode env (fuel + 1) w (.ProtoNode nd) fpath =
          some (⟨w.TarW ++ (.WriteHeader hdr :: (dagr.chunks.map TarOp.Write ++ [.Flush])),
                 w.Dag⟩, none) ∧
        entries (.WriteHeader hdr :: (dagr.chunks.map TarOp.Write ++ [.Flush]))
          = [⟨hdr, dagr.chunks.flatten⟩] ∧
        hdr.Name = fpath ∧ hdr.Typeflag = .TypeReg ∧
        hdr.Size = fsNode.FileSize) ∧
    (∀ (RawData : Bytes) (hdr : Header),
      RawData.length < 2 ^ 63 →
      hdr = { Name := fpath, Size := toInt64 RawData.length, Typeflag := .TypeReg,
              Mode := 0o644, ModTime := some (env.Now w) } →
      CallsAccepted env w [.WriteHeader hdr, .Write RawData, .Flush] →
        WriteNode env (fuel + 1) w (.RawNode RawData) fpath =
          some (⟨w.TarW ++ [.WriteHeader hdr, .Write RawData, .Flush], w.Dag⟩, none) ∧
        entries [.WriteHeader hdr, .Write RawData, .Flush] = [⟨hdr, RawData⟩] ∧
        hdr.Name = fpath ∧ hdr.Typeflag = .TypeReg ∧
        hdr.Size = RawData.length ∧
        hdr.Size = (bodyOf [.Write RawData, .Flush]).length) := by
  constructor
  · intro nd fsNode hdr dagr hdec hty hu64 hhdr hdagr herr hcalls
    simp only [CallsAccepted] at hcalls
    obtain ⟨hhead, hbody⟩ := hcalls
    obtain ⟨hwt, hflush⟩ := FileReader.WriteTo_go_accepted env dagr dagr.chunks _ _ hbody
    simp only [CallsAccepted, and_true] at hflush
    have hsize : hdr.Size = fsNode.FileSize := by
      have hnn : ¬ hdr.Size < 0 := fun h => hneg w hdr (by rw [hhdr]) h hhead
      have hmod : fsNode.FileSize % 2 ^ 64 = fsNode.FileSize := Nat.mod_eq_of_lt hu64
      rw [hhdr] at hnn ⊢
      simp only [toInt64, hmod] at hnn ⊢
      by_cases hlt : fsNode.FileSize < 2 ^ 63
      · rw [if_pos hlt]
      · rw [if_neg hlt] at hnn
        exfalso
        apply hnn
        have : ((fsNode.FileSize : Nat) : Int) < 2 ^ 64 := by exact_mod_cast hu64
        omega
    refine ⟨?_, ?_, by rw [hhdr], by rw [hhdr], hsize⟩
    · subst hhdr
      rcases hty with hty | hty <;>
        simp [WriteNode, hdec, hty, writeFile, writeFileHeader, Writer.call_eq, hhead,
          FileReader.WriteTo, ← hdagr, hwt, herr, hflush]
    · simp [entries, bodyOf_writes, entries_writes]
  · intro RawData hdr hlen hhdr hcalls
    simp only [CallsAccepted, and_true] at hcalls
    obtain ⟨h1, h2, h3⟩ := hcalls
    have hsize : hdr.Size = RawData.length := by rw [hhdr]; exact toInt64_of_lt _ hlen
    refine ⟨?_, ?_, by rw [hhdr], by rw [hhdr], hsize, ?_⟩
    · subst hhdr
      simp only [List.append_assoc, List.singleton_append] at h2 h3
      simp [WriteNode, writeFileHeader, Writer.call_eq, h1, h2, h3]
    · simp [entries, bodyOf]
    · simp [bodyOf, hsize]

theorem WriteNode_file_entry_witness :
    WriteNode (demoEnv [] tarRules) 1 ⟨[], []⟩
        (.ProtoNode ⟨[2, 1, 2, 104, 105], []⟩) (str "f") =
      some (⟨[.WriteHeader { Name := str "f", Size := 2, Typeflag := .TypeReg, Mode := 0o644,
                             ModTime := some 0 }, .Write [104, 105], .Flush], []⟩, none) ∧
    WriteNode (demoEnv [] tarRules) 1 ⟨[], []⟩ (.RawNode [7, 8]) (str "f") =
      some (⟨[.WriteHeader { Name := str "f", Size := 2, Typeflag := .TypeReg, Mode := 0o644,
                             ModTime := some 0 }, .Write [7, 8], .Flush], []⟩, none) :=
  ⟨((WriteNode_file_entry (demoEnv [] tarRules) 0 ⟨[], []⟩ (str "f")
      (tarRules_refuses_negative [])).1 ⟨[2, 1, 2, 104, 105], []⟩ ⟨.File, [104, 105], 2⟩
      { Name := str "f", Size := 2, Typeflag := .TypeReg, Mode := 0o644, ModTime := some 0 }
      ⟨[[104, 105]], none⟩ rfl (Or.inl rfl) (by decide) rfl rfl rfl
      ⟨by decide, by decide, by decide, trivial⟩).1,
   ((WriteNode_file_entry (demoEnv [] tarRules) 0 ⟨[], []⟩ (str "f")
      (tarRules_refuses_negative [])).2 [7, 8]
      { Name := str "f", Size := 2, Typeflag := .TypeReg, Mode := 0o644, ModTime := some 0 }
      (by decide) rfl
      ⟨by decide, by decide, by decide, trivial⟩).1⟩

/-- C5 (the code at the failing input): a File node that declares 5 bytes and carries 3 is
written to a tar sink that follows the rules of `archive/tar`; the final `Flush` fails because 2
bytes are missing, and `WriteNode` still returns `nil`. -/
theorem WriteNode_flush_error_dropped :
    WriteNode (demoEnv [] tarRules) 1 ⟨[], []⟩ (.ProtoNode ⟨[2, 1, 5, 1, 2, 3], []⟩) (str "f") =
      some (⟨[.WriteHeader { Name := str "f", Size := 5, Typeflag := .TypeReg, Mode := 0o644,
                             ModTime := some 0 }, .Write [1, 2, 3], .Flush], []⟩, none) ∧
    (demoEnv [] tarRules).tarErr
      ⟨[.WriteHeader { Name := str "f", Size := 5, Typeflag := .TypeReg, Mode := 0o644,
                       ModTime := some 0 }, .Write [1, 2, 3]], []⟩ .Flush
      = some (.external 2) := by
  refine ⟨by decide, by decide⟩

theorem HeaderFirst_append (a b : List TarOp) (ha : HeaderFirst a) (hb : HeaderFirst b) :
    HeaderFirst (a ++ b) := by
  cases a with
  | nil => simpa using hb
  | cons op a => cases op <;> simp_all [HeaderFirst]

theorem HeaderFirst_flatten (segs : List (List TarOp)) (h : ∀ seg ∈ segs, HeaderFirst seg) :
    HeaderFirst segs.flatten := by
  induction segs with
  | nil => simp [HeaderFirst]
  | cons seg segs ih =>
    rw [List.flatten_cons]
    exact HeaderFirst_append _ _ (h seg (List.mem_cons_self _ _))
      (ih (fun s hs => h s (List.mem_cons_of_mem _ hs)))

theorem bodyOf_append (a b : List TarOp) (hb : HeaderFirst b) : bodyOf (a ++ b) = bodyOf a := by
  induction a with
  | nil =>
    cases b with
    | nil => rfl
    | cons op b => cases op <;> simp_all [HeaderFirst, bodyOf]
  | cons op a ih => cases op <;> simp [bodyOf, ih]

theorem entries_append (a b : List TarOp) (hb : HeaderFirst b) :
    entries (a ++ b) = entries a ++ entries b := by
  induction a with
  | nil => simp [entries]
  | cons op a ih => cases op <;> simp [entries, ih, bodyOf_append a b hb]

theorem entries_flatten (segs : List (List TarOp)) (h : ∀ seg ∈ segs, HeaderFirst seg) :
    entries segs.flatten = (segs.map entries).flatten := by
  induction segs with
  | nil => simp [entries]
  | cons seg segs ih =>
    have hrest : ∀ s ∈ segs, HeaderFirst s := fun s hs => h s (List.mem_cons_of_mem _ hs)
    rw [List.flatten_cons, entries_append _ _ (HeaderFirst_flatten segs hrest), ih hrest]
    simp

/-- The iteration over the links only appends calls to the tar writer, header first, when the
callback does. -/
theorem Directory.ForEachLink_go_append (dir : Directory)
    (f : Writer → Link → Option (Writer × Option Error))
    (hf : ∀ w l w1 r, f w l = some (w1, r) →
      ∃ ops, w1.TarW = w.TarW ++ ops ∧ HeaderFirst ops) :
    ∀ (ls : List Link) (w w1 : Writer) (r : Option Error),
      Directory.ForEachLink.go dir f ls w = some (w1, r) →
        ∃ ops, w1.TarW = w.TarW ++ ops ∧ HeaderFirst ops := by
  intro ls
  induction ls with
  | nil =>
    intro w w1 r h
    simp only [Directory.ForEachLink.go, Option.some.injEq, Prod.mk.injEq] at h
    exact ⟨[], by simp [← h.1], by simp [HeaderFirst]⟩
  | cons l ls ih =>
    intro w w1 r h
    simp only [Directory.ForEachLink.go] at h
    cases hfl : f w l with
    | none => simp [hfl] at h
    | some res =>
      obtain ⟨w2, r2⟩ := res
      obtain ⟨ops2, hops2, hf2⟩ := hf w l w2 r2 hfl
      cases r2 with
      | some err =>
        simp only [hfl, Option.some.injEq, Prod.mk.injEq] at h
        exact ⟨ops2, by rw [← h.1, hops2], hf2⟩
      | none =>
        simp only [hfl] at h
        obtain ⟨ops, hops, hf1⟩ := ih w2 w1 r h
        exact ⟨ops2 ++ ops, by rw [hops, hops2, List.append_assoc],
          HeaderFirst_append _ _ hf2 hf1⟩

/-- The iteration over the links returns when the callback returns on every link. -/
theorem Directory.ForEachLink_go_returns (dir : Directory)
    (f : Writer → Link → Option (Writer × Option Error)) :
    ∀ (ls : List Link) (w : Writer), (∀ l ∈ ls, ∀ w, ∃ res, f w l = some res) →
      ∃ res, Directory.ForEachLink.go dir f ls w = some res := by
  intro ls
  induction ls with
  | nil => intro w _; exact ⟨_, rfl⟩
  | cons l ls ih =>
    intro w hf
    obtain ⟨⟨w2, r2⟩, hfl⟩ := hf l (List.mem_cons_self _ _) w
    simp only [Directory.ForEachLink.go, hfl]
    cases r2 with
    | some err => exact ⟨_, rfl⟩
    | none => exact ih w2 (fun l' hl' => hf l' (List.mem_cons_of_mem _ hl'))

/-- The call `writeDir` only appends calls to the tar writer, header first, when the recursive
call does. -/
theorem writeDir_append (env : Env)
    (rec : Writer → Node → GoString → Option (Writer × Option Error))
    (hrec : ∀ w nd p w1 r, rec w nd p = some (w1, r) →
      ∃ ops, w1.TarW = w.TarW ++ ops ∧ HeaderFirst ops)
    (w : Writer) (nd : ProtoNode) (fpath : GoString) (w1 : Writer) (r : Option Error)
    (h : writeDir env rec w nd fpath = some (w1, r)) :
    ∃ ops, w1.TarW = w.TarW ++ ops ∧ HeaderFirst ops := by
  unfold writeDir at h
  cases hdir : env.NewDirectoryFromNode nd with
  | error err =>
    simp only [hdir, Option.some.injEq, Prod.mk.injEq] at h
    exact ⟨[], by simp [← h.1], by simp [HeaderFirst]⟩
  | ok dir =>
    simp only [hdir, writeDirHeader, Writer.call_eq] at h
    cases hhdr : env.tarErr w (.WriteHeader
        { Name := fpath, Typeflag := .TypeDir, Mode := 0o777, ModTime := some (env.Now w) }) with
    | some err =>
      simp only [hhdr, Option.some.injEq, Prod.mk.injEq] at h
      exact ⟨_, by rw [← h.1], by simp [HeaderFirst]⟩
    | none =>
      simp only [hhdr, Directory.ForEachLink] at h
      have hf : ∀ w l w1 r, writeDir.func1 env rec fpath w l = some (w1, r) →
          ∃ ops, w1.TarW = w.TarW ++ ops ∧ HeaderFirst ops := by
        intro w l w1 r hfl
        unfold writeDir.func1 at hfl
        cases hget : env.Get w l.Cid with
        | error err =>
          simp only [hget, Option.some.injEq, Prod.mk.injEq] at hfl
          exact ⟨[], by simp [← hfl.1], by simp [HeaderFirst]⟩
        | ok child =>
          simp only [hget] at hfl
          exact hrec ⟨w.TarW, w.Dag ++ [l.Cid]⟩ _ _ _ _ hfl
      obtain ⟨ops, hops, _⟩ := Directory.ForEachLink_go_append dir _ hf _ _ _ _ h
      exact ⟨.WriteHeader { Name := fpath, Typeflag := .TypeDir, Mode := 0o777,
                            ModTime := some (env.Now w) } :: ops, by rw [hops]; simp, by simp [HeaderFirst]⟩

/-- Every call of `WriteNode` only appends calls to the tar writer: what was written stays, and
what is added is empty or starts with a header. -/
theorem WriteNode_append (env : Env) :
    ∀ (fuel : Nat) (w : Writer) (nd : Node) (fpath : GoString) (w1 : Writer) (r : Option Error),
      WriteNode env fuel w nd fpath = some (w1, r) →
        ∃ ops, w1.TarW = w.TarW ++ ops ∧ HeaderFirst ops := by
  intro fuel
  induction fuel with
  | zero => intro w nd fpath w1 r h; simp [WriteNode] at h
  | succ fuel ih =>
    intro w nd fpath w1 r h
    cases nd with
    | Other ty =>
      simp only [WriteNode, Option.some.injEq, Prod.mk.injEq] at h
      exact ⟨[], by simp [← h.1], by simp [HeaderFirst]⟩
    | RawNode data =>
      simp only [WriteNode, writeFileHeader, Writer.call_eq] at h
      split at h
      · next heq =>
        simp only [Prod.mk.injEq, Option.some.injEq] at heq h
        exact ⟨_, by rw [← h.1, ← heq.1], by simp [HeaderFirst]⟩
      · next heq =>
        split at h
        · next heq2 =>
          simp only [Prod.mk.injEq, Option.some.injEq] at heq heq2 h
          exact ⟨_, by rw [← h.1, ← heq2.1, ← heq.1, List.append_assoc], by simp [HeaderFirst]⟩
        · next heq2 =>
          simp only [Prod.mk.injEq, Option.some.injEq] at heq heq2 h
          exact ⟨_, by rw [← h.1, ← heq2.1, ← heq.1, List.append_assoc, List.append_assoc], by simp [HeaderFirst]⟩
    | ProtoNode nd =>
      simp only [WriteNode] at h
      cases hdec : env.FSNodeFromBytes nd.Data with
      | error err =>
        simp only [hdec, Option.some.injEq, Prod.mk.injEq] at h
        exact ⟨[], by simp [← h.1], by simp [HeaderFirst]⟩
      | ok fsNode =>
        simp only [hdec] at h
        have hfile : ∀ w1 r, some (writeFile env w nd fsNode fpath) = some (w1, r) →
            ∃ ops, w1.TarW = w.TarW ++ ops ∧ HeaderFirst ops := by
          intro w1 r hf
          simp only [Option.some.injEq] at hf
          unfold writeFile at hf
          simp only [writeFileHeader, Writer.call_eq] at hf
          split at hf
          · next heq =>
            simp only [Prod.mk.injEq] at heq hf
            exact ⟨_, by rw [← hf.1, ← heq.1], by simp [HeaderFirst]⟩
          · next heq =>
            simp only [Prod.mk.injEq] at heq
            obtain ⟨ops, hops⟩ := FileReader.WriteTo_go_append env
              (env.NewPBFileReader ⟨w.TarW ++ [.WriteHeader
                { Name := fpath, Size := toInt64 fsNode.FileSize, Typeflag := .TypeReg,
                  Mode := 0o644, ModTime := some (env.Now w) }], w.Dag⟩ nd fsNode)
              (env.NewPBFileReader ⟨w.TarW ++ [.WriteHeader
                { Name := fpath, Size := toInt64 fsNode.FileSize, Typeflag := .TypeReg,
                  Mode := 0o644, ModTime := some (env.Now w) }], w.Dag⟩ nd fsNode).chunks
              ⟨w.TarW ++ [.WriteHeader
                { Name := fpath, Size := toInt64 fsNode.FileSize, Typeflag := .TypeReg,
                  Mode := 0o644, ModTime := some (env.Now w) }], w.Dag⟩
            rw [← heq.1] at hf
            simp only [FileReader.WriteTo] at hf
            split at hf
            · next heq2 =>
              simp only [Prod.mk.injEq] at hf
              rw [heq2] at hops
              exact ⟨_, by rw [← hf.1, hops, List.append_assoc], by simp [HeaderFirst]⟩
            · next heq2 =>
              simp only [Prod.mk.injEq] at hf
              rw [heq2] at hops
              simp only at hops
              exact ⟨_, by rw [← hf.1, hops, List.append_assoc, List.append_assoc], by simp [HeaderFirst]⟩
        cases hty : fsNode.Type_ with
        | Raw => simp only [hty] at h; exact hfile _ _ h
        | File => simp only [hty] at h; exact hfile _ _ h
        | Directory => simp only [hty] at h; exact writeDir_append env _ ih _ _ _ _ _ h
        | Metadata => simp only [hty] at h; exact writeDir_append env _ ih _ _ _ _ _ h
        | HAMTShard => simp only [hty] at h; exact writeDir_append env _ ih _ _ _ _ _ h
        | Symlink =>
          simp only [hty, writeSymlinkHeader, Writer.call_eq, Option.some.injEq,
            Prod.mk.injEq] at h
          exact ⟨_, by rw [← h.1], by simp [HeaderFirst]⟩
        | Unrecognized tag =>
          simp only [hty, Option.some.injEq, Prod.mk.injEq] at h
          exact ⟨[], by simp [← h.1], by simp [HeaderFirst]⟩

/-- The call `writeDir` returns when the recursive call returns on every child that can be
fetched for a link of the directory. -/
theorem writeDir_returns (env : Env)
    (rec : Writer → Node → GoString → Option (Writer × Option Error))
    (w : Writer) (nd : ProtoNode) (fpath : GoString)
    (hrec : ∀ dir, env.NewDirectoryFromNode nd = .ok dir → ∀ l ∈ dir.links,
      ∀ (w : Writer) (child : Node), env.Get w l.Cid = .ok child →
        ∀ (w1 : Writer) (p : GoString), ∃ res, rec w1 child p = some res) :
    ∃ res, writeDir env rec w nd fpath = some res := by
  unfold writeDir
  cases hdir : env.NewDirectoryFromNode nd with
  | error err => exact ⟨_, rfl⟩
  | ok dir =>
    simp only [writeDirHeader, Writer.call_eq]
    cases hhdr : env.tarErr w (.WriteHeader
        { Name := fpath, Typeflag := .TypeDir, Mode := 0o777, ModTime := some (env.Now w) }) with
    | some err => exact ⟨_, rfl⟩
    | none =>
      simp only [Directory.ForEachLink]
      apply Directory.ForEachLink_go_returns
      intro l hl w2
      unfold writeDir.func1
      cases hget : env.Get w2 l.Cid with
      | error err => exact ⟨_, rfl⟩
      | ok child => exact hrec dir hdir l hl w2 child hget _ _

/-- Termination: over a storage without cycles below the directories, `WriteNode` returns as soon
as the recursion bound exceeds the rank of the node. -/
theorem WriteNode_returns (env : Env) (rank : Node → Nat) (hrank : env.Ranked rank) :
    ∀ (fuel : Nat) (w : Writer) (nd : Node) (fpath : GoString), rank nd < fuel →
      ∃ res, WriteNode env fuel w nd fpath = some res := by
  intro fuel
  induction fuel with
  | zero => intro w nd fpath h; omega
  | succ fuel ih =>
    intro w nd fpath hlt
    cases nd with
    | Other ty => exact ⟨_, rfl⟩
    | RawNode data =>
      simp only [WriteNode]
      split
      · exact ⟨_, rfl⟩
      · split <;> exact ⟨_, rfl⟩
    | ProtoNode nd =>
      simp only [WriteNode]
      cases hdec : env.FSNodeFromBytes nd.Data with
      | error err => exact ⟨_, rfl⟩
      | ok fsNode =>
        have hdir : ∃ res, writeDir env (WriteNode env fuel) w nd fpath = some res := by
          apply writeDir_returns
          intro dir hd l hl w2 child hget w1 p
          apply ih
          have hmem : l ∈ dirLinks env (.ProtoNode nd) := by simpa [dirLinks, hd] using hl
          have := hrank w2 (.ProtoNode nd) l child hmem hget
          omega
        cases hty : fsNode.Type_ with
        | Raw => simp only [hty]; exact ⟨_, rfl⟩
        | File => simp only [hty]; exact ⟨_, rfl⟩
        | Directory => simp only [hty]; exact hdir
        | Metadata => simp only [hty]; exact hdir
        | HAMTShard => simp only [hty]; exact hdir
        | Symlink => simp only [hty]; exact ⟨_, rfl⟩
        | Unrecognized tag => simp only [hty]; exact ⟨_, rfl⟩

/-- The iteration of `writeDir` over the links appends, child after child in link order, the
calls of `WriteNode` for each fetched child; when it ends without error every link was visited. -/
theorem writeDir_go_segments (env : Env) (fuel : Nat) (fpath : GoString) (dir : Directory) :
    ∀ (ls : List Link) (w w1 : Writer) (r : Option Error),
      Directory.ForEachLink.go dir (writeDir.func1 env (WriteNode env fuel) fpath) ls w
          = some (w1, r) →
        w1.TarW = w.TarW ++ (childSegments env fuel fpath ls w).flatten ∧
        (∀ seg ∈ childSegments env fuel fpath ls w, HeaderFirst seg) ∧
        (r = none → (childSegments env fuel fpath ls w).length = ls.length) := by
  intro ls
  induction ls with
  | nil =>
    intro w w1 r h
    simp only [Directory.ForEachLink.go, Option.some.injEq, Prod.mk.injEq] at h
    simp [childSegments, ← h.1]
  | cons l ls ih =>
    intro w w1 r h
    simp only [Directory.ForEachLink.go, writeDir.func1] at h
    cases hget : env.Get w l.Cid with
    | error err =>
      simp only [hget, Option.some.injEq, Prod.mk.injEq] at h
      refine ⟨by simp [childSegments, hget, ← h.1], by simp [childSegments, hget], ?_⟩
      intro hr
      rw [hr] at h
      simp at h
    | ok child =>
      simp only [hget] at h
      cases hrun : WriteNode env fuel ⟨w.TarW, w.Dag ++ [l.Cid]⟩ child (Join fpath l.Name) with
      | none => simp [hrun] at h
      | some res =>
        obtain ⟨w2, r2⟩ := res
        obtain ⟨ops, hops, hfirst⟩ := WriteNode_append env fuel _ _ _ _ _ hrun
        have hops2 : w2.TarW = w.TarW ++ ops := hops
        have hdrop : w2.TarW.drop w.TarW.length = ops := by simp [hops2]
        cases r2 with
        | some err =>
          simp only [hrun, Option.some.injEq, Prod.mk.injEq] at h
          refine ⟨by simp [childSegments, hget, hrun, hdrop, ← h.1, hops2],
            by simp [childSegments, hget, hrun, hdrop, hfirst], ?_⟩
          intro hr
          rw [hr] at h
          simp at h
        | none =>
          simp only [hrun] at h
          obtain ⟨h1, h3, h2⟩ := ih w2 w1 r h
          refine ⟨?_, ?_, ?_⟩
          · simp [childSegments, hget, hrun, hdrop, h1, hops2]
          · intro seg hseg
            simp only [childSegments, hget, hrun, hdrop, List.mem_cons] at hseg
            rcases hseg with hseg | hseg
            · rw [hseg]; exact hfirst
            · exact h3 seg hseg
          · intro hr
            simp [childSegments, hget, hrun, h2 hr]

theorem demoRank_link (ls : List Link) (l : Link) (hl : l ∈ ls) :
    (if l.Cid = 1 then 2 else 1) ≤ (ls.map (fun l => if l.Cid = 1 then 2 else 1)).sum := by
  induction ls with
  | nil => simp at hl
  | cons x xs ih =>
    rcases List.mem_cons.mp hl with h | h
    · subst h; simp
    · have := ih h
      simp only [List.map_cons, List.sum_cons]
      omega

/-- The example storage has no cycle: `demoRank` decreases along every link. -/
theorem demoEnv_ranked (c : Bytes) (sink : Writer → TarOp → Option Error) :
    (demoEnv c sink).Ranked demoRank := by
  intro w nd l child hl hget
  cases nd with
  | Other ty => simp [dirLinks] at hl
  | RawNode data => simp [dirLinks] at hl
  | ProtoNode nd =>
    have hmem : l ∈ nd.Links := by
      simp only [dirLinks, demoEnv, demoNewDirectory] at hl
      split at hl
      · next heq =>
        split at heq
        · simp at heq
        · split at heq
          · simp only [Except.ok.injEq] at heq
            rw [← heq] at hl
            exact hl
          · simp at heq
      · simp at hl
    have hle := demoRank_link nd.Links l hmem
    simp only [demoEnv] at hget
    by_cases h1 : l.Cid = 1
    · simp only [h1, demoStore, Except.ok.injEq] at hget
      subst hget
      simp only [h1, if_true] at hle
      simp only [demoRank]
      have : (List.map (fun l : Link => if l.Cid = 1 then 2 else 1)
          [⟨str "f.txt", 0, 2⟩]).sum = 1 := by decide
      omega
    · simp only [h1, if_false] at hle
      have hchild : demoRank child = 0 := by
        by_cases h2 : l.Cid = 2
        · simp only [h2, demoStore, Except.ok.injEq] at hget
          subst hget; simp [demoRank]
        · by_cases h3 : l.Cid = 3
          · simp only [h3, demoStore, Except.ok.injEq] at hget
            subst hget; simp [demoRank]
          · exfalso
            unfold demoStore at hget
            split at hget <;> simp_all
      rw [hchild]
      show 0 < (nd.Links.map (fun l => if l.Cid = 1 then 2 else 1)).sum
      omega

/-- C2 (as amended): for a protobuf node of kind Directory, HAMTShard or Metadata from which a
directory can be built, over a storage without cycles, and when the sink accepts the directory
header, `WriteNode` returns, and the calls it appends to the tar writer are the directory header
named `fpath` first, followed by the concatenation, in link order, of the calls of `WriteNode` for
each fetched child at the joined path; so the entries are the directory entry followed by the
entries of the children, and when the result is `nil` every link has its segment. -/
theorem WriteNode_directory (env : Env) (rank : Node → Nat) (hrank : env.Ranked rank)
    (fuel : Nat) (w : Writer) (nd : ProtoNode) (fpath : GoString) (fsNode : FSNode)
    (dir : Directory) (hdr : Header)
    (hfuel : rank (.ProtoNode nd) ≤ fuel)
    (hdec : env.FSNodeFromBytes nd.Data = .ok fsNode)
    (hty : fsNode.Type_ = .Directory ∨ fsNode.Type_ = .HAMTShard ∨ fsNode.Type_ = .Metadata)
    (hdir : env.NewDirectoryFromNode nd = .ok dir)
    (hhdr : hdr = { Name := fpath, Typeflag := .TypeDir, Mode := 0o777,
                    ModTime := some (env.Now w) })
    (hsink : env.tarErr w (.WriteHeader hdr) = none) :
    ∃ (w1 : Writer) (r : Option Error) (segs : List (List TarOp)),
      segs = childSegments env fuel fpath dir.links ⟨w.TarW ++ [.WriteHeader hdr], w.Dag⟩ ∧
      WriteNode env (fuel + 1) w (.ProtoNode nd) fpath = some (w1, r) ∧
      w1.TarW = w.TarW ++ .WriteHeader hdr :: segs.flatten ∧
      entries (.WriteHeader hdr :: segs.flatten) = ⟨hdr, []⟩ :: (segs.map entries).flatten ∧
      (r = none → segs.length = dir.links.length) := by
  subst hhdr
  have hret : ∃ res, writeDir env (WriteNode env fuel) w nd fpath = some res := by
    apply writeDir_returns
    intro dir hd l hl w2 child hget w1 p
    apply WriteNode_returns env rank hrank
    have hmem : l ∈ dirLinks env (.ProtoNode nd) := by simpa [dirLinks, hd] using hl
    have := hrank w2 (.ProtoNode nd) l child hmem hget
    omega
  obtain ⟨⟨w1, r⟩, hres⟩ := hret
  have hW : WriteNode env (fuel + 1) w (.ProtoNode nd) fpath = some (w1, r) := by
    rcases hty with hty | hty | hty <;> simp only [WriteNode, hdec, hty] <;> exact hres
  simp only [writeDir, hdir, writeDirHeader, Writer.call_eq, hsink, Directory.ForEachLink]
    at hres
  obtain ⟨h1, h2, h3⟩ := writeDir_go_segments env fuel fpath dir dir.links _ w1 r hres
  refine ⟨w1, r, _, rfl, hW, ?_, ?_, h3⟩
  · rw [h1]; simp
  · have hb := bodyOf_append [] _ (HeaderFirst_flatten _ h2)
    simp only [List.nil_append, bodyOf] at hb
    simp only [entries, hb, entries_flatten _ h2]

theorem WriteNode_directory_witness :
    ∃ (w1 : Writer) (r : Option Error) (segs : List (List TarOp)),
      segs = childSegments (demoEnv [104, 105] (fun _ _ => none)) 3 (str "a") demoRoot.Links
        ⟨[] ++ [.WriteHeader { Name := str "a", Typeflag := .TypeDir, Mode := 0o777,
                               ModTime := some 0 }], []⟩ ∧
      WriteNode (demoEnv [104, 105] (fun _ _ => none)) (3 + 1) ⟨[], []⟩ (.ProtoNode demoRoot)
        (str "a") = some (w1, r) ∧
      w1.TarW = [] ++ .WriteHeader { Name := str "a", Typeflag := .TypeDir, Mode := 0o777,
                                     ModTime := some 0 } :: segs.flatten ∧
      entries (.WriteHeader { Name := str "a", Typeflag := .TypeDir, Mode := 0o777,
                              ModTime := some 0 } :: segs.flatten)
        = ⟨{ Name := str "a", Typeflag := .TypeDir, Mode := 0o777, ModTime := some 0 }, []⟩
            :: (segs.map entries).flatten ∧
      (r = none → segs.length = demoRoot.Links.length) :=
  WriteNode_directory (demoEnv [104, 105] (fun _ _ => none)) demoRank (demoEnv_ranked _ _) 3
    ⟨[], []⟩ demoRoot (str "a") ⟨.Directory, [], 0⟩ ⟨demoRoot.Links, none⟩ _
    (by decide) rfl (Or.inl rfl) rfl rfl rfl

/-- C2, as stated, fails: for a node of kind Metadata from which no directory can be built,
`WriteNode` writes nothing and returns the constructor's error, although no sink or storage
operation failed. -/
theorem WriteNode_directory_counterexample :
    demoDecode [3, 0] = .ok ⟨.Metadata, [], 0⟩ ∧
    (∀ w op, (demoEnv [] (fun _ _ => none)).tarErr w op = none) ∧
    WriteNode (demoEnv [] (fun _ _ => none)) 1 ⟨[], []⟩ (.ProtoNode ⟨[3, 0], []⟩) (str "m")
      = some (⟨[], []⟩, some (.external 5)) := by
  refine ⟨rfl, fun _ _ => rfl, by decide⟩

/-- C6 (as amended): for a directory node written at any path, the empty one included, over a
storage without cycles, `WriteNode` returns and the first call it appends to the tar writer is a
directory header whose `Name` is that path: the root gets an entry of its own, with the empty name
when the path is empty, and the entries of the descendants follow it. -/
theorem WriteNode_root_entry (env : Env) (rank : Node → Nat) (hrank : env.Ranked rank)
    (fuel : Nat) (w : Writer) (nd : ProtoNode) (fpath : GoString) (fsNode : FSNode)
    (dir : Directory) (hdr : Header)
    (hfuel : rank (.ProtoNode nd) ≤ fuel)
    (hdec : env.FSNodeFromBytes nd.Data = .ok fsNode)
    (hty : fsNode.Type_ = .Directory ∨ fsNode.Type_ = .HAMTShard ∨ fsNode.Type_ = .Metadata)
    (hdir : env.NewDirectoryFromNode nd = .ok dir)
    (hhdr : hdr = { Name := fpath, Typeflag := .TypeDir, Mode := 0o777,
                    ModTime := some (env.Now w) }) :
    ∃ (w1 : Writer) (r : Option Error) (rest : List TarOp),
      WriteNode env (fuel + 1) w (.ProtoNode nd) fpath = some (w1, r) ∧
      w1.TarW = w.TarW ++ .WriteHeader hdr :: rest ∧
      entries (.WriteHeader hdr :: rest) = ⟨hdr, []⟩ :: entries rest := by
  subst hhdr
  have hret : ∃ res, writeDir env (WriteNode env fuel) w nd fpath = some res := by
    apply writeDir_returns
    intro dir hd l hl w2 child hget w1 p
    apply WriteNode_returns env rank hrank
    have hmem : l ∈ dirLinks env (.ProtoNode nd) := by simpa [dirLinks, hd] using hl
    have := hrank w2 (.ProtoNode nd) l child hmem hget
    omega
  obtain ⟨⟨w1, r⟩, hres⟩ := hret
  have hW : WriteNode env (fuel + 1) w (.ProtoNode nd) fpath = some (w1, r) := by
    rcases hty with hty | hty | hty <;> simp only [WriteNode, hdec, hty] <;> exact hres
  simp only [writeDir, hdir, writeDirHeader, Writer.call_eq] at hres
  cases hsink : env.tarErr w (.WriteHeader
      { Name := fpath, Typeflag := .TypeDir, Mode := 0o777, ModTime := some (env.Now w) }) with
  | some err =>
    simp only [hsink, Option.some.injEq, Prod.mk.injEq] at hres
    exact ⟨w1, r, [], hW, by rw [← hres.1], by simp [entries, bodyOf]⟩
  | none =>
    simp only [hsink, Directory.ForEachLink] at hres
    obtain ⟨h1, h2, _⟩ := writeDir_go_segments env fuel fpath dir dir.links _ w1 r hres
    refine ⟨w1, r, (childSegments env fuel fpath dir.links ⟨w.TarW ++ [.WriteHeader
      { Name := fpath, Typeflag := .TypeDir, Mode := 0o777, ModTime := some (env.Now w) }],
      w.Dag⟩).flatten, hW, by rw [h1]; simp, ?_⟩
    have hb := bodyOf_append [] _ (HeaderFirst_flatten _ h2)
    simp only [List.nil_append, bodyOf] at hb
    simp only [entries, hb]

theorem WriteNode_root_entry_witness :
    ∃ (w1 : Writer) (r : Option Error) (rest : List TarOp),
      WriteNode (demoEnv [104, 105] (fun _ _ => none)) (3 + 1) ⟨[], []⟩ (.ProtoNode demoRoot) []
        = some (w1, r) ∧
      w1.TarW = [] ++ .WriteHeader { Name := [], Typeflag := .TypeDir, Mode := 0o777,
                                     ModTime := some 0 } :: rest ∧
      entries (.WriteHeader { Name := [], Typeflag := .TypeDir, Mode := 0o777,
                              ModTime := some 0 } :: rest)
        = ⟨{ Name := [], Typeflag := .TypeDir, Mode := 0o777, ModTime := some 0 }, []⟩
            :: entries rest :=
  WriteNode_root_entry (demoEnv [104, 105] (fun _ _ => none)) demoRank (demoEnv_ranked _ _) 3
    ⟨[], []⟩ demoRoot [] ⟨.Directory, [], 0⟩ ⟨demoRoot.Links, none⟩ _
    (by decide) rfl (Or.inl rfl) rfl rfl

/-- C6, as stated, fails: archiving the example tree at the empty path writes, before the
entries of the descendants, a directory entry with the empty name for the root itself. -/
theorem WriteNode_root_entry_counterexample :
    (WriteNode (demoEnv [104, 105] tarRules) 3 ⟨[], []⟩ (.ProtoNode demoRoot) []).map
        (fun res => ((entries res.1.TarW).map (fun e => (e.hdr.Typeflag, e.hdr.Name)), res.2))
      = some ([(.TypeDir, []), (.TypeDir, str "b"), (.TypeReg, str "b/f.txt"),
               (.TypeSymlink, str "link")], none) := by
  decide

/-! ## Theorems: the joined path -/

theorem Clean.loop_nil (rooted copying : Bool) (out : List UInt8) (dotdot : Nat) :
    Clean.loop rooted copying [] out dotdot = out := by
  cases copying <;> simp [Clean.loop]

/-- The inner loop of `Clean` copies a slash-free element up to the next slash or the end. -/
theorem Clean.loop_copy (rooted : Bool) (dotdot : Nat) :
    ∀ (s tail out : List UInt8), slash ∉ s → (tail = [] ∨ ∃ t, tail = slash :: t) →
      Clean.loop rooted true (s ++ tail) out dotdot
        = Clean.loop rooted false tail.tail (s.reverse ++ out) dotdot := by
  intro s
  induction s with
  | nil =>
    intro tail out _ htail
    rcases htail with h | ⟨t, h⟩
    · subst h; simp [Clean.loop_nil]
    · subst h; simp [Clean.loop]
  | cons c s ih =>
    intro tail out hs htail
    have hc : c ≠ slash := fun h => hs (by simp [h])
    have hs' : slash ∉ s := fun h => hs (by simp [h])
    have h := ih tail (c :: out) hs' htail
    simp [Clean.loop, hc, h]

/-- One step of `Clean` on a plain element: the element is copied to the buffer, after a slash
when the buffer holds more than the leading slash of a rooted path. -/
theorem Clean.loop_plain (rooted : Bool) (dotdot : Nat) (s tail out : List UInt8)
    (hs : PlainElem s) (htail : tail = [] ∨ ∃ t, tail = slash :: t) :
    Clean.loop rooted false (s ++ tail) out dotdot
      = Clean.loop rooted false tail.tail
          (s.reverse ++ (if (rooted = true ∧ out.length ≠ 1) ∨ (¬ rooted = true ∧ out.length ≠ 0)
            then slash :: out else out)) dotdot := by
  obtain ⟨hne, hsl, hdot, hdd⟩ := hs
  cases s with
  | nil => exact absurd rfl hne
  | cons c s =>
    have hc : c ≠ slash := fun h => hsl (by simp [h])
    have hs' : slash ∉ s := fun h => hsl (by simp [h])
    have hhead : (s ++ tail).head? = some slash → s = [] := by
      intro h
      cases s with
      | nil => rfl
      | cons d s => simp at h; exact absurd h (fun h => hs' (by simp [h]))
    have hnotdot : ¬ (c = dot ∧ (s ++ tail = [] ∨ (s ++ tail).head? = some slash)) := by
      rintro ⟨h1, h2 | h2⟩
      · simp at h2; exact hdot (by rw [h1, h2.1])
      · exact hdot (by rw [h1, hhead h2])
    have hnotdd : ¬ (c = dot ∧ (s ++ tail).head? = some dot ∧
        ((s ++ tail).tail = [] ∨ (s ++ tail).tail.head? = some slash)) := by
      rintro ⟨h1, h2, h3⟩
      cases s with
      | nil =>
        rcases htail with h | ⟨t, h⟩
        · subst h; simp at h2
        · subst h; simp [slash, dot] at h2
      | cons d s =>
        simp only [List.cons_append, List.head?_cons, Option.some.injEq] at h2
        simp only [List.cons_append, List.tail_cons] at h3
        have hs'' : slash ∉ s := fun h => hs' (by simp [h])
        have hsnil : s = [] := by
          rcases h3 with h3 | h3
          · simp at h3; exact h3.1
          · cases s with
            | nil => rfl
            | cons e s => simp at h3; exact absurd h3 (fun h => hs'' (by simp [h]))
        exact hdd (by rw [h1, h2, hsnil])
    have key : ∀ rest : List UInt8,
        ¬ (c = dot ∧ (rest = [] ∨ rest.head? = some slash)) →
        ¬ (c = dot ∧ rest.head? = some dot ∧ (rest.tail = [] ∨ rest.tail.head? = some slash)) →
        Clean.loop rooted false (c :: rest) out dotdot
          = Clean.loop rooted true rest
              (c :: (if (rooted = true ∧ out.length ≠ 1) ∨ (¬ rooted = true ∧ out.length ≠ 0)
                then slash :: out else out)) dotdot := by
      intro rest h1 h2
      cases rest with
      | nil =>
        have hcd : c ≠ dot := fun h => h1 ⟨h, Or.inl rfl⟩
        simp [Clean.loop, hc, hcd]
      | cons d r =>
        conv_lhs => rw [Clean.loop]
        simp only [hc, if_false, h1, h2]
    rw [List.cons_append, key _ hnotdot hnotdd, Clean.loop_copy rooted dotdot s tail _ hs' htail]
    simp

theorem joinElems_cons (e : GoString) (es : List GoString) (hes : es ≠ []) :
    joinElems (e :: es) = e ++ slash :: joinElems es := by
  cases es with
  | nil => exact absurd rfl hes
  | cons x xs => rfl

/-- The loop of `Clean` copies a run of plain elements unchanged. -/
theorem Clean.loop_elems (rooted : Bool) (dotdot : Nat) :
    ∀ (es : List GoString), es ≠ [] → (∀ e ∈ es, PlainElem e) → ∀ (out : List UInt8),
      (rooted = true → out ≠ []) →
      Clean.loop rooted false (joinElems es) out dotdot
        = (joinElems es).reverse ++
          (if (rooted = true ∧ out.length ≠ 1) ∨ (¬ rooted = true ∧ out.length ≠ 0)
            then slash :: out else out) := by
  intro es
  induction es with
  | nil => intro h; exact absurd rfl h
  | cons e es ih =>
    intro _ hall out hout
    have he : PlainElem e := hall e (List.mem_cons_self _ _)
    cases es with
    | nil =>
      have := Clean.loop_plain rooted dotdot e [] out he (Or.inl rfl)
      simp only [List.append_nil, List.tail_nil, Clean.loop_nil] at this
      simpa [joinElems] using this
    | cons x xs =>
      have hrest : ∀ e' ∈ x :: xs, PlainElem e' := fun e' h => hall e' (List.mem_cons_of_mem _ h)
      have hj : joinElems (e :: x :: xs) = e ++ slash :: joinElems (x :: xs) := rfl
      have hne : e ≠ [] := he.1
      have helen : 0 < e.length := List.length_pos.mpr hne
      rw [hj, Clean.loop_plain rooted dotdot e (slash :: joinElems (x :: xs)) out he
        (Or.inr ⟨_, rfl⟩)]
      simp only [List.tail_cons]
      generalize hout1 : (if (rooted = true ∧ out.length ≠ 1) ∨ (¬ rooted = true ∧ out.length ≠ 0)
        then slash :: out else out) = out1
      have hlen1 : out.length ≤ out1.length := by
        rw [← hout1]; split <;> simp
      have hnext : rooted = true → e.reverse ++ out1 ≠ [] := by
        intro _ h
        have h1 : e.reverse = [] := (List.append_eq_nil.mp h).1
        exact hne (by simpa using h1)
      rw [ih (by simp) hrest (e.reverse ++ out1) hnext]
      have hcond : (rooted = true ∧ (e.reverse ++ out1).length ≠ 1) ∨
          (¬ rooted = true ∧ (e.reverse ++ out1).length ≠ 0) := by
        simp only [List.length_append, List.length_reverse]
        by_cases hr : rooted = true
        · left
          have : 0 < out.length := List.length_pos.mpr (hout hr)
          exact ⟨hr, by omega⟩
        · right
          exact ⟨hr, by omega⟩
      rw [if_pos hcond]
      simp

/-- One step of `Clean` on a `..` element of a relative path whose buffer holds only `..`
elements: nothing can be removed, so the element is appended. -/
theorem Clean.loop_dotdot (tail out : List UInt8) (htail : tail = [] ∨ ∃ t, tail = slash :: t) :
    Clean.loop false false (dot :: dot :: tail) out out.length
      = Clean.loop false false tail.tail
          (dot :: dot :: (if 0 < out.length then slash :: out else out))
          ((if 0 < out.length then slash :: out else out).length + 2) := by
  have hds : dot ≠ slash := by decide
  conv_lhs => rw [Clean.loop]
  rcases htail with h | ⟨t, h⟩
  · subst h
    simp [hds, Clean.loop_nil]
  · subst h
    have hslash : ∀ (o : List UInt8) (d : Nat),
        Clean.loop false false (slash :: t) o d = Clean.loop false false t o d := by
      intro o d
      cases t <;> simp [Clean.loop]
    simp [hds, hslash]

/-- The loop of `Clean` copies a relative path of `..` elements followed by plain elements
unchanged, when the buffer holds only `..` elements. -/
theorem Clean.loop_relative :
    ∀ (k : Nat) (es : List GoString), (∀ e ∈ es, PlainElem e) → k + es.length ≠ 0 →
      ∀ (out : List UInt8),
        Clean.loop false false (joinElems (List.replicate k [dot, dot] ++ es)) out out.length
          = (joinElems (List.replicate k [dot, dot] ++ es)).reverse ++
            (if out.length ≠ 0 then slash :: out else out) := by
  intro k
  induction k with
  | zero =>
    intro es hall hne out
    have hes : es ≠ [] := by
      intro h; subst h; simp at hne
    have := Clean.loop_elems false out.length es hes hall out (by simp)
    simpa using this
  | succ k ih =>
    intro es hall _ out
    have hcons : List.replicate (k + 1) [dot, dot] ++ es
        = [dot, dot] :: (List.replicate k [dot, dot] ++ es) := by
      rw [List.replicate_succ, List.cons_append]
    rw [hcons]
    have hpos : (0 < out.length) = (out.length ≠ 0) := by
      apply propext; omega
    by_cases hrest : List.replicate k [dot, dot] ++ es = []
    · rw [hrest]
      have := Clean.loop_dotdot [] out (Or.inl rfl)
      simp only [List.tail_nil, Clean.loop_nil] at this
      simp only [joinElems]
      rw [this]
      simp [hpos]
    · have hk : k + es.length ≠ 0 := by
        intro h
        apply hrest
        have hk0 : k = 0 := by omega
        have he0 : es = [] := List.eq_nil_of_length_eq_zero (by omega)
        simp [hk0, he0]
      rw [joinElems_cons _ _ hrest]
      have := Clean.loop_dotdot (slash :: joinElems (List.replicate k [dot, dot] ++ es)) out
        (Or.inr ⟨_, rfl⟩)
      simp only [List.tail_cons] at this
      have happ : [dot, dot] ++ slash :: joinElems (List.replicate k [dot, dot] ++ es)
          = dot :: dot :: slash :: joinElems (List.replicate k [dot, dot] ++ es) := rfl
      rw [happ, this]
      have hih := ih es hall hk (dot :: dot :: (if 0 < out.length then slash :: out else out))
      simp only [List.length_cons] at hih
      rw [hih]
      simp [hpos]

/-- `Clean` leaves every path of a cleaned shape unchanged. -/
theorem Clean_of_CleanShape (s : GoString) (h : CleanShape s) : Clean s = s := by
  rcases h with h | h | ⟨es, hes, hall, h⟩ | ⟨k, es, hall, hne, h⟩
  · subst h; decide
  · subst h; decide
  · subst h
    have hloop := Clean.loop_elems true 1 es hes hall [slash] (by simp)
    simp only [List.length_singleton, ne_eq, not_true_eq_false, and_false, false_or,
      Bool.true_eq_false, not_false_eq_true, true_and, if_false] at hloop
    unfold Clean
    simp [hloop]
  · have hloop := Clean.loop_relative k es hall hne []
    simp only [List.length_nil, ne_eq, not_true_eq_false, if_false, List.append_nil] at hloop
    have hshape : ∃ c rest, s = c :: rest ∧ c ≠ slash := by
      cases k with
      | succ k =>
        refine ⟨dot, ?_⟩
        by_cases hrest : List.replicate k [dot, dot] ++ es = []
        · exact ⟨[dot], by rw [h, List.replicate_succ, List.cons_append, hrest]; rfl, by decide⟩
        · exact ⟨dot :: slash :: joinElems (List.replicate k [dot, dot] ++ es),
            by rw [h, List.replicate_succ, List.cons_append, joinElems_cons _ _ hrest]; rfl,
            by decide⟩
      | zero =>
        simp only [List.replicate_zero, List.nil_append] at h
        cases es with
        | nil => simp at hne
        | cons e es' =>
          have he : PlainElem e := hall e (List.mem_cons_self _ _)
          obtain ⟨c, r, hcr⟩ := List.exists_cons_of_ne_nil he.1
          have hc : c ≠ slash := fun hc => he.2.1 (by rw [hcr]; simp [hc])
          cases es' with
          | nil => exact ⟨c, r, by rw [h, hcr]; rfl, hc⟩
          | cons x xs =>
            exact ⟨c, r ++ slash :: joinElems (x :: xs), by rw [h, hcr]; rfl, hc⟩
    obtain ⟨c, rest, hs, hc⟩ := hshape
    rw [← h] at hloop
    unfold Clean
    rw [hs] at hloop ⊢
    simp [hc, hloop]

theorem CleanShape_ne_nil (s : GoString) (h : CleanShape s) : s ≠ [] := by
  intro hs
  have hclean := Clean_of_CleanShape s h
  rw [hs] at hclean
  exact absurd hclean (by decide)

/-- `Join` is the plain concatenation with a slash whenever that is a cleaned path, and the
second element when the first is empty and the second is a cleaned path. -/
theorem Join_of_CleanShape (a b : GoString) :
    (a ≠ [] → CleanShape (a ++ slash :: b) → Join a b = a ++ slash :: b) ∧
    (a = [] → CleanShape b → Join a b = b) := by
  constructor
  · intro ha h
    have h0 : ¬ (a.length + b.length = 0) := by
      intro h0
      exact ha (List.eq_nil_of_length_eq_zero (by omega))
    unfold Join
    rw [if_neg h0, if_neg ha, Clean_of_CleanShape _ h]
  · intro ha h
    have hb : b ≠ [] := CleanShape_ne_nil b h
    have h0 : ¬ (a.length + b.length = 0) := by
      intro h0
      exact hb (List.eq_nil_of_length_eq_zero (by omega))
    unfold Join
    rw [if_neg h0, if_pos ha, Clean_of_CleanShape _ h]

/-- C7 (as amended): the path that `writeDir` passes to `WriteNode` for a child is, for every
`fpath` and every link name, `path.Join(fpath, l.Name)`. Whenever `fpath` is not empty and
`fpath`, a slash and the name make up a cleaned path (rooted or relative, with leading `..`
elements or not, the name of one or more elements), this is `fpath`, a slash and the name, and
`fpath` is a prefix of it; when `fpath` is empty and the name is a cleaned path, it is the
name. -/
theorem writeDir_child_path (env : Env)
    (rec : Writer → Node → GoString → Option (Writer × Option Error))
    (w : Writer) (l : Link) (child : Node) (fpath : GoString)
    (hget : env.Get w l.Cid = .ok child) :
    writeDir.func1 env rec fpath w l
      = rec ⟨w.TarW, w.Dag ++ [l.Cid]⟩ child (Join fpath l.Name) ∧
    (fpath ≠ [] → CleanShape (fpath ++ slash :: l.Name) →
      Join fpath l.Name = fpath ++ slash :: l.Name ∧ fpath <+: Join fpath l.Name) ∧
    (fpath = [] → CleanShape l.Name → Join fpath l.Name = l.Name) := by
  refine ⟨by simp [writeDir.func1, hget], ?_, (Join_of_CleanShape fpath l.Name).2⟩
  intro hne hshape
  have hj := (Join_of_CleanShape fpath l.Name).1 hne hshape
  exact ⟨hj, by rw [hj]; exact List.prefix_append _ _⟩

theorem writeDir_child_path_witness :
    writeDir.func1 (demoEnv [] tarRules) (WriteNode (demoEnv [] tarRules) 1)
        (str "/a") ⟨[], []⟩ ⟨str "link", 0, 3⟩
      = WriteNode (demoEnv [] tarRules) 1 ⟨[], [] ++ [3]⟩
          (.ProtoNode ⟨4 :: 0 :: str "target", []⟩) (Join (str "/a") (str "link")) ∧
    Join (str "/a") (str "link") = str "/a" ++ slash :: str "link" ∧
    str "/a" <+: Join (str "/a") (str "link") :=
  ⟨(writeDir_child_path (demoEnv [] tarRules) (WriteNode (demoEnv [] tarRules) 1) ⟨[], []⟩
      ⟨str "link", 0, 3⟩ (.ProtoNode ⟨4 :: 0 :: str "target", []⟩) (str "/a") rfl).1,
   (writeDir_child_path (demoEnv [] tarRules) (WriteNode (demoEnv [] tarRules) 1) ⟨[], []⟩
      ⟨str "link", 0, 3⟩ (.ProtoNode ⟨4 :: 0 :: str "target", []⟩) (str "/a") rfl).2.1
      (by decide)
      (Or.inr (Or.inr (Or.inl ⟨[str "a", str "link"], by decide,
        by
          intro e he
          simp only [List.mem_cons, List.mem_singleton, List.not_mem_nil, or_false] at he
          rcases he with he | he <;> subst he <;> unfold PlainElem <;> decide,
        by decide⟩)))⟩

/-- C7, as stated, fails: in a directory written at `a`, the child under the link name `..` is
written at the path `.`, which is neither `a/..` nor below `a`. -/
theorem writeDir_child_path_counterexample :
    Join (str "a") (str "..") = str "." ∧
    ¬ (str "a" <+: Join (str "a") (str "..")) ∧
    (WriteNode (demoEnv [] tarRules) 2 ⟨[], []⟩
        (.ProtoNode ⟨[1, 0], [⟨str "..", 0, 3⟩]⟩) (str "a")).map
        (fun res => ((entries res.1.TarW).map (fun e => (e.hdr.Typeflag, e.hdr.Name)), res.2))
      = some ([(.TypeDir, str "a"), (.TypeSymlink, str ".")], none) := by
  refine ⟨by decide, by decide, by decide⟩

theorem Join_a_b : Join (str "a") (str "b") = str "a/b" := by decide

theorem Join_a_link : Join (str "a") (str "link") = str "a/link" := by decide

theorem Join_ab_f : Join (str "a/b") (str "f.txt") = str "a/b/f.txt" := by decide

theorem bodyOf_map_write (cs : List Bytes) (ops : List TarOp) :
    bodyOf (cs.map TarOp.Write ++ ops) = cs.flatten ++ bodyOf ops := by
  induction cs with
  | nil => simp
  | cons c cs ih => simp [bodyOf, ih]

theorem entries_map_write (cs : List Bytes) (ops : List TarOp) :
    entries (cs.map TarOp.Write ++ ops) = entries ops := by
  induction cs with
  | nil => simp
  | cons c cs ih => simp [entries, ih]

/-- On a protobuf node of a directory kind, `WriteNode` is `writeDir`. -/
theorem WriteNode_dir_eq (env : Env) (fuel : Nat) (w : Writer) (nd : ProtoNode)
    (fpath : GoString) (fsNode : FSNode) (hdec : env.FSNodeFromBytes nd.Data = .ok fsNode)
    (hty : fsNode.Type_ = .Directory ∨ fsNode.Type_ = .HAMTShard ∨ fsNode.Type_ = .Metadata) :
    WriteNode env (fuel + 1) w (.ProtoNode nd) fpath
      = writeDir env (WriteNode env fuel) w nd fpath := by
  rcases hty with h | h | h <;> simp only [WriteNode, hdec, h]

/-- C8: for every content `c`, over a storage that holds the tree and a sink that accepts the
calls made, archiving at `a` a directory with the subdirectory `b`, which holds the regular file
`f.txt` of content `c`, and the symlink `link` to `target` succeeds and makes up exactly the four
entries directory `a`, directory `a/b`, regular file `a/b/f.txt` with `Size = len(c)` and body
`c`, symlink `a/link` to `target`, in this order. The file may be a raw node or a protobuf file
node that declares `len(c)` bytes and whose reader yields `c`; `hdrA`, `hdrB`, `hdrF`, `hdrL`
are the four headers and `wA`, `wB`, `wL` the states of the writer at which the last three are
written. -/
theorem WriteNode_archive_fidelity (env : Env) (w : Writer) (c : Bytes)
    (root sub lnk : ProtoNode) (file : Node) (fsRoot fsSub fsLnk : FSNode)
    (cidB cidF cidL szB szF szL : Nat)
    (hdrA hdrB hdrF hdrL : Header) (wA wB wL : Writer) (body : List TarOp)
    (hlen : c.length < 2 ^ 63)
    (hroot : env.FSNodeFromBytes root.Data = .ok fsRoot) (hrootTy : fsRoot.Type_ = .Directory)
    (hrootDir : env.NewDirectoryFromNode root
      = .ok ⟨[⟨str "b", szB, cidB⟩, ⟨str "link", szL, cidL⟩], none⟩)
    (hgetB : ∀ w, env.Get w cidB = .ok (.ProtoNode sub))
    (hsub : env.FSNodeFromBytes sub.Data = .ok fsSub) (hsubTy : fsSub.Type_ = .Directory)
    (hsubDir : env.NewDirectoryFromNode sub = .ok ⟨[⟨str "f.txt", szF, cidF⟩], none⟩)
    (hgetF : ∀ w, env.Get w cidF = .ok file)
    (hgetL : ∀ w, env.Get w cidL = .ok (.ProtoNode lnk))
    (hlnk : env.FSNodeFromBytes lnk.Data = .ok fsLnk) (hlnkTy : fsLnk.Type_ = .Symlink)
    (hlnkData : fsLnk.Data = str "target")
    (hhA : hdrA = { Name := str "a", Typeflag := .TypeDir, Mode := 0o777,
                    ModTime := some (env.Now w) })
    (hA : env.tarErr w (.WriteHeader hdrA) = none)
    (hwA : wA = ⟨w.TarW ++ [.WriteHeader hdrA], w.Dag ++ [cidB]⟩)
    (hhB : hdrB = { Name := str "a/b", Typeflag := .TypeDir, Mode := 0o777,
                    ModTime := some (env.Now wA) })
    (hB : env.tarErr wA (.WriteHeader hdrB) = none)
    (hwB : wB = ⟨wA.TarW ++ [.WriteHeader hdrB], wA.Dag ++ [cidF]⟩)
    (hhF : hdrF = { Name := str "a/b/f.txt", Size := c.length, Typeflag := .TypeReg,
                    Mode := 0o644, ModTime := some (env.Now wB) })
    (hF : CallsAccepted env wB (.WriteHeader hdrF :: (body ++ [.Flush])))
    (hfile : (file = .RawNode c ∧ body = [.Write c]) ∨
      ∃ (f : ProtoNode) (fsFile : FSNode) (dagr : FileReader), file = .ProtoNode f ∧
        env.FSNodeFromBytes f.Data = .ok fsFile ∧ fsFile.Type_ = .File ∧
        fsFile.FileSize = c.length ∧
        dagr = env.NewPBFileReader ⟨wB.TarW ++ [.WriteHeader hdrF], wB.Dag⟩ f fsFile ∧
        dagr.chunks.flatten = c ∧ dagr.err = none ∧ body = dagr.chunks.map TarOp.Write)
    (hwL : wL = ⟨wB.TarW ++ (.WriteHeader hdrF :: (body ++ [.Flush])), wB.Dag ++ [cidL]⟩)
    (hhL : hdrL = { Name := str "a/link", Linkname := str "target", Mode := 0o777,
                    Typeflag := .TypeSymlink })
    (hL : env.tarErr wL (.WriteHeader hdrL) = none) :
    ∃ (w1 : Writer) (ops : List TarOp),
      WriteNode env 3 w (.ProtoNode root) (str "a") = some (w1, none) ∧
      w1.TarW = w.TarW ++ ops ∧
      (entries ops).map
          (fun e => (e.hdr.Typeflag, e.hdr.Name, e.hdr.Size, e.hdr.Linkname, e.body))
        = [(.TypeDir, str "a", 0, [], []),
           (.TypeDir, str "a/b", 0, [], []),
           (.TypeReg, str "a/b/f.txt", (c.length : Int), [], c),
           (.TypeSymlink, str "a/link", 0, str "target", [])] := by
  simp only [CallsAccepted] at hF
  obtain ⟨hFh, hFbody⟩ := hF
  refine ⟨⟨wL.TarW ++ [.WriteHeader hdrL], wL.Dag⟩,
    [.WriteHeader hdrA, .WriteHeader hdrB, .WriteHeader hdrF] ++ body ++ [.Flush, .WriteHeader hdrL],
    ?_, by rw [hwL, hwB, hwA]; simp, ?_⟩
  · have hsz : toInt64 c.length = c.length := toInt64_of_lt _ hlen
    rcases hfile with ⟨hfile, hbody⟩ | ⟨f, fsFile, dagr, hfile, hdecF, hfTy, hfSize, hdagr, _, herr,
        hbody⟩
    · subst hfile hbody
      simp only [List.singleton_append, List.cons_append, List.nil_append, CallsAccepted,
        and_true] at hFbody
      obtain ⟨hw, hfl⟩ := hFbody
      simp only [List.append_assoc, List.singleton_append] at hfl
      have hstep1 : WriteNode env 1 wB (.RawNode c) (str "a/b/f.txt")
          = some (⟨wB.TarW ++ [.WriteHeader hdrF, .Write c, .Flush], wB.Dag⟩, none) := by
        simp [WriteNode, writeFileHeader, Writer.call_eq, hsz, ← hhF, hFh, hw, hfl]
      have hstep2 : WriteNode env 2 wA (.ProtoNode sub) (str "a/b")
          = some (⟨wB.TarW ++ [.WriteHeader hdrF, .Write c, .Flush], wB.Dag⟩, none) := by
        rw [WriteNode_dir_eq env 1 wA sub _ fsSub hsub (Or.inl hsubTy)]
        simp [writeDir, writeDir.func1, Directory.ForEachLink,
          Directory.ForEachLink.go, writeDirHeader, Writer.call_eq, hsubDir,
          hgetF, ← hhB, hB, Join_ab_f, ← hwB, hstep1]
      have hL2 : env.tarErr ⟨wB.TarW ++ [.WriteHeader hdrF, .Write c, .Flush], wB.Dag ++ [cidL]⟩
          (.WriteHeader hdrL) = none := by
        rw [hwL] at hL; simpa using hL
      rw [hwL]
      have hlink : ∀ w2, WriteNode env 2 w2 (.ProtoNode lnk) (str "a/link")
          = some (⟨w2.TarW ++ [.WriteHeader hdrL], w2.Dag⟩, env.tarErr w2 (.WriteHeader hdrL)) := by
        intro w2
        simp [WriteNode, hlnk, hlnkTy, hlnkData, writeSymlinkHeader, Writer.call_eq, hhL]
      rw [WriteNode_dir_eq env 2 w root _ fsRoot hroot (Or.inl hrootTy)]
      simp [writeDir, writeDir.func1, Directory.ForEachLink,
        Directory.ForEachLink.go, writeDirHeader, Writer.call_eq,
        hrootDir, hgetB, hgetL, ← hhA, hA, Join_a_b,
        Join_a_link, ← hwA, hstep2, hlink, hL2]
    · subst hfile hbody
      obtain ⟨hwt, hfl⟩ := FileReader.WriteTo_go_accepted env dagr dagr.chunks _ _ hFbody
      simp only [CallsAccepted, and_true] at hfl
      have hstep1 : WriteNode env 1 wB (.ProtoNode f) (str "a/b/f.txt")
          = some (⟨wB.TarW ++ (.WriteHeader hdrF :: (dagr.chunks.map TarOp.Write ++ [.Flush])),
                   wB.Dag⟩, none) := by
        simp [WriteNode, hdecF, hfTy, hfSize, writeFile, writeFileHeader, Writer.call_eq, hsz,
          ← hhF, hFh, FileReader.WriteTo, ← hdagr, hwt, herr, hfl]
      have hstep2 : WriteNode env 2 wA (.ProtoNode sub) (str "a/b")
          = some (⟨wB.TarW ++ (.WriteHeader hdrF :: (dagr.chunks.map TarOp.Write ++ [.Flush])),
                   wB.Dag⟩, none) := by
        rw [WriteNode_dir_eq env 1 wA sub _ fsSub hsub (Or.inl hsubTy)]
        simp [writeDir, writeDir.func1, Directory.ForEachLink,
          Directory.ForEachLink.go, writeDirHeader, Writer.call_eq, hsubDir,
          hgetF, ← hhB, hB, Join_ab_f, ← hwB, hstep1]
      have hL2 : env.tarErr
          ⟨wB.TarW ++ (.WriteHeader hdrF :: (dagr.chunks.map TarOp.Write ++ [.Flush])),
           wB.Dag ++ [cidL]⟩ (.WriteHeader hdrL) = none := by
        rw [hwL] at hL; exact hL
      rw [hwL]
      have hlink : ∀ w2, WriteNode env 2 w2 (.ProtoNode lnk) (str "a/link")
          = some (⟨w2.TarW ++ [.WriteHeader hdrL], w2.Dag⟩, env.tarErr w2 (.WriteHeader hdrL)) := by
        intro w2
        simp [WriteNode, hlnk, hlnkTy, hlnkData, writeSymlinkHeader, Writer.call_eq, hhL]
      rw [WriteNode_dir_eq env 2 w root _ fsRoot hroot (Or.inl hrootTy)]
      simp [writeDir, writeDir.func1, Directory.ForEachLink,
        Directory.ForEachLink.go, writeDirHeader, Writer.call_eq,
        hrootDir, hgetB, hgetL, ← hhA, hA, Join_a_b,
        Join_a_link, ← hwA, hstep2, hlink, hL2]
  · rcases hfile with ⟨_, hbody⟩ | ⟨f, fsFile, dagr, _, _, _, _, _, hflat, _, hbody⟩
    · subst hbody
      simp [entries, bodyOf, hhA, hhB, hhF, hhL]
    · subst hbody
      simp [entries, bodyOf, hhA, hhB, hhF, hhL, bodyOf_map_write, entries_map_write, hflat]

theorem WriteNode_archive_fidelity_witness :
    ∃ (w1 : Writer) (ops : List TarOp),
      WriteNode (demoEnv [104, 105] tarRules) 3 ⟨[], []⟩ (.ProtoNode demoRoot) (str "a")
        = some (w1, none) ∧
      w1.TarW = [] ++ ops ∧
      (entries ops).map
          (fun e => (e.hdr.Typeflag, e.hdr.Name, e.hdr.Size, e.hdr.Linkname, e.body))
        = [(.TypeDir, str "a", 0, [], []),
           (.TypeDir, str "a/b", 0, [], []),
           (.TypeReg, str "a/b/f.txt", (([104, 105] : Bytes).length : Int), [], [104, 105]),
           (.TypeSymlink, str "a/link", 0, str "target", [])] :=
  WriteNode_archive_fidelity (demoEnv [104, 105] tarRules) ⟨[], []⟩ [104, 105]
    demoRoot ⟨[1, 0], [⟨str "f.txt", 0, 2⟩]⟩ ⟨4 :: 0 :: str "target", []⟩
    (.ProtoNode ⟨[2, 1, 2, 104, 105], []⟩)
    ⟨.Directory, [], 0⟩ ⟨.Directory, [], 0⟩ ⟨.Symlink, str "target", 0⟩
    1 2 3 0 0 0
    { Name := str "a", Typeflag := .TypeDir, Mode := 0o777, ModTime := some 0 }
    { Name := str "a/b", Typeflag := .TypeDir, Mode := 0o777, ModTime := some 1 }
    { Name := str "a/b/f.txt", Size := 2, Typeflag := .TypeReg, Mode := 0o644,
      ModTime := some 2 }
    { Name := str "a/link", Linkname := str "target", Mode := 0o777, Typeflag := .TypeSymlink }
    _ _ _ [.Write [104, 105]]
    (by decide) rfl rfl rfl (fun _ => rfl) rfl rfl rfl (fun _ => rfl) (fun _ => rfl) rfl rfl rfl
    rfl (by decide) rfl rfl (by decide) rfl rfl
    ⟨by decide, by decide, by decide, trivial⟩
    (Or.inr ⟨⟨[2, 1, 2, 104, 105], []⟩, ⟨.File, [104, 105], 2⟩, ⟨[[104, 105]], none⟩,
      rfl, rfl, rfl, rfl, rfl, rfl, rfl, rfl⟩)
    rfl rfl (by decide)

/-! ## Theorems: importer/importer.go -/

theorem Store.Le_refl (ds : Store) : ds.Le ds := ⟨rfl, fun _ _ h => h⟩

theorem Store.Le_trans {a b c : Store} (hab : a.Le b) (hbc : b.Le c) : a.Le c :=
  ⟨hbc.1.trans hab.1, fun x nd h => hbc.2 x nd (hab.2 x nd h)⟩

theorem Store.NeverFails_of_le {ds ds1 : Store} (hle : ds.Le ds1) (h : ds.NeverFails) :
    ds1.NeverFails := by
  intro nodes nd
  rw [hle.1]
  exact h nodes nd

/-- Over a storage that never fails, a put succeeds, keeps what storage held, and the node can
be got under the identifier returned. -/
theorem Store.put_ok (ds : Store) (nd : DagNode) (h : ds.NeverFails) :
    ∃ (ds1 : Store) (c : Cid), ds.put nd = .ok (ds1, c) ∧ ds.Le ds1 ∧ ds1.get c = some nd := by
  unfold Store.put
  rw [h ds.nodes nd]
  by_cases hin : ds.nodes.indexOf nd < ds.nodes.length
  · refine ⟨ds, ds.nodes.indexOf nd, by simp [hin], Store.Le_refl ds, ?_⟩
    simp only [Store.get]
    rw [List.getElem?_eq_getElem hin, List.getElem_indexOf hin]
  · refine ⟨{ ds with nodes := ds.nodes ++ [nd] }, ds.nodes.length, by simp [hin], ⟨rfl, ?_⟩,
      by simp [Store.get]⟩
    intro c x hx
    simp only [Store.get] at hx ⊢
    have hc : c < ds.nodes.length := by
      by_contra hlt
      have hge : ds.nodes.length ≤ c := Nat.le_of_not_lt hlt
      rw [List.getElem?_eq_none hge] at hx
      exact absurd hx (by simp)
    rw [List.getElem?_append_left hc]
    exact hx

theorem DagReader.readLinks_mono (ds ds1 : Store) (rd rd1 : DagNode → Option Bytes)
    (hle : ds.Le ds1) (hrd : ∀ nd b, rd nd = some b → rd1 nd = some b) :
    ∀ (ls : List Link) (b : Bytes),
      DagReader.readLinks ds rd ls = some b → DagReader.readLinks ds1 rd1 ls = some b := by
  intro ls
  induction ls with
  | nil => intro b h; simpa [DagReader.readLinks] using h
  | cons l ls ih =>
    intro b h
    simp only [DagReader.readLinks] at h ⊢
    cases hget : ds.get l.Cid with
    | none => simp [hget] at h
    | some child =>
      simp only [hget] at h
      cases hrdc : rd child with
      | none => simp [hrdc] at h
      | some head =>
        simp only [hrdc] at h
        by_cases hsz : head.length ≠ l.Size
        · simp [hsz] at h
        · simp only [hsz, if_false] at h
          cases htail : DagReader.readLinks ds rd ls with
          | none => simp [htail] at h
          | some tail =>
            simp only [htail] at h
            simp only [hle.2 _ _ hget, hrd _ _ hrdc, hsz, if_false, ih _ htail]
            exact h

/-- Reading succeeds all the more over a larger storage and with a larger depth bound. -/
theorem DagReader.read_mono (ds ds1 : Store) (hle : ds.Le ds1) :
    ∀ (fuel fuel1 : Nat), fuel ≤ fuel1 → ∀ (nd : DagNode) (b : Bytes),
      DagReader.read ds fuel nd = some b → DagReader.read ds1 fuel1 nd = some b := by
  intro fuel
  induction fuel with
  | zero =>
    intro fuel1 _ nd b h
    cases nd with
    | RawLeaf data => cases fuel1 <;> simpa [DagReader.read] using h
    | FileNode fs data links =>
      cases links with
      | nil => cases fuel1 <;> simpa [DagReader.read] using h
      | cons l ls => simp [DagReader.read] at h
  | succ fuel ih =>
    intro fuel1 hf nd b h
    obtain ⟨f1, rfl⟩ : ∃ f1, fuel1 = f1 + 1 := ⟨fuel1 - 1, by omega⟩
    cases nd with
    | RawLeaf data => simpa [DagReader.read] using h
    | FileNode fs data links =>
      cases links with
      | nil => simpa [DagReader.read] using h
      | cons l ls =>
        simp only [DagReader.read] at h ⊢
        by_cases hsz : fs ≠ ((l :: ls).map (fun l => l.Size)).sum
        · rw [if_pos hsz] at h
          exact absurd h (by simp)
        · rw [if_neg hsz] at h ⊢
          exact DagReader.readLinks_mono ds ds1 _ _ hle (ih f1 (by omega)) _ _ h

theorem Reads_mono {ds ds1 : Store} (hle : ds.Le ds1) {ls : List Link} {b : Bytes}
    (h : Reads ds ls b) : Reads ds1 ls b := by
  obtain ⟨fuel, hf⟩ := h
  exact ⟨fuel, DagReader.readLinks_mono ds ds1 _ _ hle
    (DagReader.read_mono ds ds1 hle fuel fuel (Nat.le_refl _)) _ _ hf⟩

theorem Reads_nil (ds : Store) : Reads ds [] [] := ⟨0, rfl⟩

theorem Reads_nil_iff (ds : Store) (b : Bytes) : Reads ds [] b ↔ b = [] := by
  constructor
  · rintro ⟨fuel, h⟩
    simp only [DagReader.readLinks, Option.some.injEq] at h
    exact h.symm
  · rintro rfl; exact Reads_nil ds

theorem DagReader.readLinks_append (ds : Store) (rd : DagNode → Option Bytes) :
    ∀ (l1 l2 : List Link) (b1 b2 : Bytes),
      DagReader.readLinks ds rd l1 = some b1 → DagReader.readLinks ds rd l2 = some b2 →
      DagReader.readLinks ds rd (l1 ++ l2) = some (b1 ++ b2) := by
  intro l1
  induction l1 with
  | nil =>
    intro l2 b1 b2 h1 h2
    simp only [DagReader.readLinks, Option.some.injEq] at h1
    simpa [← h1] using h2
  | cons l ls ih =>
    intro l2 b1 b2 h1 h2
    simp only [List.cons_append, DagReader.readLinks] at h1 ⊢
    cases hget : ds.get l.Cid with
    | none => simp [hget] at h1
    | some child =>
      simp only [hget] at h1 ⊢
      cases hrdc : rd child with
      | none => simp [hrdc] at h1
      | some head =>
        simp only [hrdc] at h1 ⊢
        by_cases hsz : head.length ≠ l.Size
        · simp [hsz] at h1
        · simp only [hsz, if_false] at h1 ⊢
          cases htail : DagReader.readLinks ds rd ls with
          | none => simp [htail] at h1
          | some tail =>
            simp only [htail, Option.some.injEq] at h1
            simp only [List.append_eq, ih l2 tail b2 htail h2, Option.some.injEq]
            rw [← h1, List.append_assoc]

/-- What is read through links has, in total, the length that the links declare. -/
theorem DagReader.readLinks_length (ds : Store) (rd : DagNode → Option Bytes) :
    ∀ (ls : List Link) (b : Bytes), DagReader.readLinks ds rd ls = some b →
      (ls.map (fun l => l.Size)).sum = b.length := by
  intro ls
  induction ls with
  | nil =>
    intro b h
    simp only [DagReader.readLinks, Option.some.injEq] at h
    simp [← h]
  | cons l ls ih =>
    intro b h
    simp only [DagReader.readLinks] at h
    cases hget : ds.get l.Cid with
    | none => simp [hget] at h
    | some child =>
      simp only [hget] at h
      cases hrdc : rd child with
      | none => simp [hrdc] at h
      | some head =>
        simp only [hrdc] at h
        by_cases hsz : head.length ≠ l.Size
        · simp [hsz] at h
        · simp only [hsz, if_false] at h
          cases htail : DagReader.readLinks ds rd ls with
          | none => simp [htail] at h
          | some tail =>
            simp only [htail, Option.some.injEq] at h
            have := ih tail htail
            have hl : head.length = l.Size := not_not.mp hsz
            simp only [List.map_cons, List.sum_cons, ← h, List.length_append]
            omega

theorem Reads_append {ds : Store} {l1 l2 : List Link} {b1 b2 : Bytes}
    (h1 : Reads ds l1 b1) (h2 : Reads ds l2 b2) : Reads ds (l1 ++ l2) (b1 ++ b2) := by
  obtain ⟨f1, hf1⟩ := h1
  obtain ⟨f2, hf2⟩ := h2
  refine ⟨max f1 f2, DagReader.readLinks_append ds _ l1 l2 b1 b2 ?_ ?_⟩
  · exact DagReader.readLinks_mono ds ds _ _ (Store.Le_refl ds)
      (DagReader.read_mono ds ds (Store.Le_refl ds) f1 _ (Nat.le_max_left _ _)) _ _ hf1
  · exact DagReader.readLinks_mono ds ds _ _ (Store.Le_refl ds)
      (DagReader.read_mono ds ds (Store.Le_refl ds) f2 _ (Nat.le_max_right _ _)) _ _ hf2

theorem ChildrenRead_mono {ds ds1 : Store} (hle : ds.Le ds1) {cs : List Child} {b : Bytes}
    (h : ChildrenRead ds cs b) : ChildrenRead ds1 cs b :=
  ⟨fun c hc => hle.2 _ _ (h.1 c hc), Reads_mono hle h.2⟩

theorem ChildrenRead_nil (ds : Store) : ChildrenRead ds [] [] :=
  ⟨fun _ h => absurd h (List.not_mem_nil _), Reads_nil ds⟩

theorem ChildrenRead_nil_iff (ds : Store) (b : Bytes) : ChildrenRead ds [] b ↔ b = [] := by
  constructor
  · intro h; exact (Reads_nil_iff ds b).mp h.2
  · rintro rfl; exact ChildrenRead_nil ds

theorem ChildrenRead_append {ds : Store} {c1 c2 : List Child} {b1 b2 : Bytes}
    (h1 : ChildrenRead ds c1 b1) (h2 : ChildrenRead ds c2 b2) :
    ChildrenRead ds (c1 ++ c2) (b1 ++ b2) := by
  refine ⟨?_, ?_⟩
  · intro c hc
    rcases List.mem_append.mp hc with h | h
    · exact h1.1 c h
    · exact h2.1 c h
  · rw [List.map_append]
    exact Reads_append h1.2 h2.2

/-- Over a storage that never fails, a node that reads as `b` and declares the size of `b` is
written and then reads, through its link, as `b`. -/
theorem addNode_ok (ds : Store) (nd : DagNode) (b : Bytes) (hds : ds.NeverFails)
    (hread : ∃ fuel, DagReader.read ds fuel nd = some b) (hsize : nd.size = b.length) :
    ∃ (ds1 : Store) (c : Child), addNode ds nd = .ok (ds1, c) ∧ ds.Le ds1 ∧ c.node = nd ∧
      ChildrenRead ds1 [c] b := by
  obtain ⟨ds1, cid, hput, hle, hget⟩ := Store.put_ok ds nd hds
  obtain ⟨fuel, hf⟩ := hread
  have hf1 := DagReader.read_mono ds ds1 hle fuel fuel (Nat.le_refl _) _ _ hf
  refine ⟨ds1, ⟨nd, ⟨[], nd.size, cid⟩⟩, by simp [addNode, hput], hle, rfl, ?_, fuel, ?_⟩
  · intro c hc
    simp only [List.mem_singleton] at hc
    subst hc
    exact hget
  · simp [DagReader.readLinks, hget, hf1, hsize]

/-- The leaf of a byte range is written and reads as that range. -/
theorem leaf_ok (ds : Store) (chunk : Bytes) (hds : ds.NeverFails) :
    ∃ (ds1 : Store) (c : Child), addNode ds (newLeaf chunk) = .ok (ds1, c) ∧ ds.Le ds1 ∧
      c.node = newLeaf chunk ∧ ChildrenRead ds1 [c] chunk :=
  addNode_ok ds _ chunk hds ⟨0, by simp [newLeaf, DagReader.read]⟩ rfl

/-- A finalized internal node is written and reads as its children. -/
theorem finalize_ok (ds : Store) (cs : List Child) (b : Bytes) (hds : ds.NeverFails)
    (h : ChildrenRead ds cs b) :
    ∃ (ds1 : Store) (p : Child), finalize ds cs = .ok (ds1, p) ∧ ds.Le ds1 ∧
      ChildrenRead ds1 [p] b := by
  obtain ⟨fuel, hf⟩ := h.2
  have hlen := DagReader.readLinks_length ds _ _ _ hf
  have hsum : (cs.map (fun c => c.link.Size)).sum
      = ((cs.map (fun c => c.link)).map (fun l => l.Size)).sum := by
    rw [List.map_map]; rfl
  have hread : ∃ fuel, DagReader.read ds fuel
      (.FileNode (cs.map (fun c => c.link.Size)).sum [] (cs.map (fun c => c.link))) = some b := by
    cases hcs : cs.map (fun c => c.link) with
    | nil =>
      rw [hcs] at hf hsum
      simp only [DagReader.readLinks, Option.some.injEq] at hf
      exact ⟨0, by simp [DagReader.read, hsum, ← hf]⟩
    | cons l ls =>
      rw [hcs] at hf hsum
      exact ⟨fuel + 1, by simp only [DagReader.read, hsum]; simpa using hf⟩
  obtain ⟨ds1, p, hadd, hle, _, hp⟩ := addNode_ok ds _ b hds hread (by
    simp only [DagNode.size, hsum]; exact hlen)
  exact ⟨ds1, p, hadd, hle, hp⟩

/-- A child that reads as `b` makes `ReadAll` on its node give `b` for every large enough
depth bound. -/
theorem ReadAll_of_ChildrenRead (ds : Store) (c : Child) (b : Bytes)
    (h : ChildrenRead ds [c] b) :
    ∃ fuel, ∀ fuel1, fuel ≤ fuel1 → DagReader.ReadAll ds fuel1 c.node = some b := by
  obtain ⟨hst, fuel, hf⟩ := h
  have hget := hst c (List.mem_singleton.mpr rfl)
  refine ⟨fuel, fun fuel1 hle => ?_⟩
  simp only [List.map_cons, List.map_nil, DagReader.readLinks, hget] at hf
  unfold DagReader.ReadAll
  cases hrd : DagReader.read ds fuel c.node with
  | none => simp [hrd] at hf
  | some head =>
    simp only [hrd] at hf
    by_cases hsz : head.length ≠ c.link.Size
    · simp [hsz] at hf
    · simp only [hsz, if_false, List.append_nil, Option.some.injEq] at hf
      rw [← hf]
      exact DagReader.read_mono ds ds (Store.Le_refl ds) fuel fuel1 hle _ _ hrd

theorem StackReads_mono {ds ds1 : Store} (hle : ds.Le ds1) :
    ∀ (stack : List (List Child)) (b : Bytes), StackReads ds stack b → StackReads ds1 stack b := by
  intro stack
  induction stack with
  | nil => intro b h; exact h
  | cons cur up ih =>
    intro b h
    obtain ⟨bu, bc, hu, hc, hb⟩ := h
    exact ⟨bu, bc, ih bu hu, ChildrenRead_mono hle hc, hb⟩

/-- Appending a child to the open nodes of the balanced layout succeeds over a storage that
never fails, and appends the bytes of the child. -/
theorem Balanced.push_ok (maxlinks : Nat) :
    ∀ (stack : List (List Child)) (c : Child) (ds : Store) (b bl : Bytes),
      ds.NeverFails → StackReads ds stack b → ChildrenRead ds [c] bl →
        ∃ (stack1 : List (List Child)) (ds1 : Store),
          Balanced.push maxlinks stack c ds = .ok (stack1, ds1) ∧
          StackReads ds1 stack1 (b ++ bl) ∧ ds.Le ds1 := by
  intro stack
  induction stack with
  | nil =>
    intro c ds b bl _ hs hl
    simp only [StackReads] at hs
    subst hs
    exact ⟨[[c]], ds, rfl, ⟨[], bl, rfl, hl, rfl⟩, Store.Le_refl ds⟩
  | cons cur up ih =>
    intro c ds b bl hds hs hl
    obtain ⟨bu, bc, hu, hc, hb⟩ := hs
    subst hb
    by_cases hfull : maxlinks ≤ (cur ++ [c]).length
    · obtain ⟨ds1, p, hfin, hle, hp⟩ :=
        finalize_ok ds (cur ++ [c]) (bc ++ bl) hds (ChildrenRead_append hc hl)
      obtain ⟨up1, ds2, hpush, hs2, hle2⟩ := ih p ds1 bu (bc ++ bl)
        (Store.NeverFails_of_le hle hds) (StackReads_mono hle up bu hu) hp
      refine ⟨[] :: up1, ds2, ?_, ⟨bu ++ (bc ++ bl), [], hs2, ChildrenRead_nil _, by simp⟩,
        Store.Le_trans hle hle2⟩
      rw [Balanced.push, if_pos hfull, hfin]
      simp only [hpush]
    · refine ⟨(cur ++ [c]) :: up, ds, ?_, ⟨bu, bc ++ bl, hu, ChildrenRead_append hc hl, by simp⟩,
        Store.Le_refl ds⟩
      rw [Balanced.push, if_neg hfull]

/-- Pulling the byte ranges into the balanced layout succeeds over a storage that never fails,
and appends all of them, in order. -/
theorem Balanced.fill_ok (maxlinks : Nat) :
    ∀ (spl : List Bytes) (stack : List (List Child)) (ds : Store) (b : Bytes),
      ds.NeverFails → StackReads ds stack b →
        ∃ (stack1 : List (List Child)) (ds1 : Store),
          Balanced.fill maxlinks spl stack ds = .ok (stack1, ds1) ∧
          StackReads ds1 stack1 (b ++ spl.flatten) ∧ ds.Le ds1 := by
  intro spl
  induction spl with
  | nil =>
    intro stack ds b _ h
    exact ⟨stack, ds, rfl, by simpa using h, Store.Le_refl ds⟩
  | cons chunk spl ih =>
    intro stack ds b hds h
    obtain ⟨ds1, leaf, hadd, hle1, _, hleaf⟩ := leaf_ok ds chunk hds
    have hds1 := Store.NeverFails_of_le hle1 hds
    obtain ⟨stack1, ds2, hpush, hs1, hle2⟩ := Balanced.push_ok maxlinks stack leaf ds1 b chunk
      hds1 (StackReads_mono hle1 stack b h) hleaf
    obtain ⟨stack2, ds3, hfill, hs2, hle3⟩ := ih stack1 ds2 (b ++ chunk)
      (Store.NeverFails_of_le hle2 hds1) hs1
    refine ⟨stack2, ds3, ?_, ?_, Store.Le_trans hle1 (Store.Le_trans hle2 hle3)⟩
    · rw [Balanced.fill, hadd]
      simp only [hpush]
      exact hfill
    · rw [List.flatten_cons, ← List.append_assoc]
      exact hs2

/-- Closing the open nodes of the balanced layout succeeds over a storage that never fails and
gives a root that reads as all the bytes the open nodes stood for, followed by those of the
node carried up; there is no root only when there are no bytes and no nodes. -/
theorem Balanced.finish_ok :
    ∀ (stack : List (List Child)) (carry : Option Child) (ds : Store) (b bc : Bytes),
      ds.NeverFails → StackReads ds stack b → ChildrenRead ds carry.toList bc →
        ∃ (r : Option Child) (ds1 : Store),
          Balanced.finish carry stack ds = .ok (r, ds1) ∧
          ChildrenRead ds1 r.toList (b ++ bc) ∧ ds.Le ds1 := by
  intro stack
  induction stack with
  | nil =>
    intro carry ds b bc _ hs hc
    simp only [StackReads] at hs
    subst hs
    exact ⟨carry, ds, by simp [Balanced.finish], by simpa using hc, Store.Le_refl ds⟩
  | cons cur up ih =>
    intro carry ds b bc hds hs hc
    obtain ⟨bu, bcur, hu, hcur, hb⟩ := hs
    subst hb
    have hall : ChildrenRead ds (cur ++ carry.toList) (bcur ++ bc) := ChildrenRead_append hcur hc
    obtain ⟨ds1, p, hfin, hle, hp⟩ := finalize_ok ds _ _ hds hall
    cases up with
    | nil =>
      simp only [StackReads] at hu
      subst hu
      simp only [Balanced.finish, List.nil_append]
      split
      · next heq =>
        rw [heq] at hall
        exact ⟨none, ds, rfl, by simpa using hall, Store.Le_refl ds⟩
      · next c heq =>
        rw [heq] at hall
        exact ⟨some c, ds, rfl, by simpa using hall, Store.Le_refl ds⟩
      · next =>
        rw [hfin]
        exact ⟨some p, ds1, rfl, by simpa using hp, hle⟩
    | cons up1 ups =>
      simp only [Balanced.finish]
      split
      · next heq =>
        rw [heq] at hall
        have hnil : bcur ++ bc = [] := (ChildrenRead_nil_iff ds _).mp hall
        obtain ⟨r, ds2, hfinish, hr, hle2⟩ := ih none ds bu [] hds hu (ChildrenRead_nil ds)
        refine ⟨r, ds2, hfinish, ?_, hle2⟩
        rw [List.append_assoc, hnil]
        exact hr
      · next =>
        rw [hfin]
        obtain ⟨r, ds2, hfinish, hr, hle2⟩ := ih (some p) ds1 bu (bcur ++ bc)
          (Store.NeverFails_of_le hle hds) (StackReads_mono hle _ bu hu) (by simpa using hp)
        refine ⟨r, ds2, hfinish, ?_, Store.Le_trans hle hle2⟩
        rw [List.append_assoc]
        exact hr

/-- Over a storage that never fails and with a chunker that ends cleanly, the balanced layout
returns a root that reads as the concatenation of the byte ranges. -/
theorem Balanced.balanced_root_reads (db : DagBuilderHelper) (hds : db.dserv.NeverFails)
    (herr : db.spl.err = none) :
    ∃ (root : DagNode) (ds1 : Store), Balanced.Layout db = .ok (root, ds1) ∧
      ∃ fuel, ∀ fuel1, fuel ≤ fuel1 →
        DagReader.ReadAll ds1 fuel1 root = some db.spl.chunks.flatten := by
  obtain ⟨stack, ds1, hfill, hs, hle1⟩ :=
    Balanced.fill_ok db.maxlinks db.spl.chunks [] db.dserv [] hds rfl
  have hds1 := Store.NeverFails_of_le hle1 hds
  obtain ⟨r, ds2, hfinish, hr, hle2⟩ := Balanced.finish_ok stack none ds1 _ [] hds1 hs
    (ChildrenRead_nil ds1)
  simp only [List.nil_append, List.append_nil] at hr
  cases r with
  | none =>
    have hnil : db.spl.chunks.flatten = [] := (ChildrenRead_nil_iff _ _).mp hr
    obtain ⟨ds3, leaf, hadd, _, _, hleaf⟩ := leaf_ok ds2 [] (Store.NeverFails_of_le hle2 hds1)
    refine ⟨leaf.node, ds3, ?_, ?_⟩
    · simp only [Balanced.Layout, hfill, herr, hfinish, hadd]
    · rw [hnil]
      exact ReadAll_of_ChildrenRead ds3 leaf [] hleaf
  | some root =>
    refine ⟨root.node, ds2, ?_, ReadAll_of_ChildrenRead ds2 root _ hr⟩
    simp only [Balanced.Layout, hfill, herr, hfinish]

theorem Builds_of_le {f : List Bytes → Store → Except Error (List Child × List Bytes × Store)}
    {k j : Nat} (h : Builds f k) (hjk : j ≤ k) : Builds f j := by
  intro spl ds hds
  obtain ⟨cs, rest, ds1, used, heq, hsplit, hreads, hle, hlen⟩ := h spl ds hds
  exact ⟨cs, rest, ds1, used, heq, hsplit, hreads, hle, by omega⟩

/-- The direct leaves of a trickle node are built and read as the byte ranges taken for
them. -/
theorem Trickle.leaves_builds : ∀ (n : Nat), Builds (Trickle.leaves n) n := by
  intro n
  induction n with
  | zero =>
    intro spl ds _
    exact ⟨[], spl, ds, [], by simp [Trickle.leaves], rfl, ChildrenRead_nil ds,
      Store.Le_refl ds, by simp⟩
  | succ n ih =>
    intro spl ds hds
    cases spl with
    | nil =>
      exact ⟨[], [], ds, [], by simp [Trickle.leaves], rfl, ChildrenRead_nil ds,
        Store.Le_refl ds, by simp⟩
    | cons chunk spl =>
      obtain ⟨ds1, leaf, hadd, hle1, _, hleaf⟩ := leaf_ok ds chunk hds
      obtain ⟨cs, rest, ds2, used, heq, hsplit, hreads, hle2, hlen⟩ :=
        ih spl ds1 (Store.NeverFails_of_le hle1 hds)
      refine ⟨leaf :: cs, rest, ds2, chunk :: used, ?_, ?_, ?_, Store.Le_trans hle1 hle2, ?_⟩
      · rw [Trickle.leaves, hadd]
        simp only [heq]
      · rw [List.cons_append, ← hsplit]
      · rw [List.flatten_cons]
        exact @ChildrenRead_append ds2 [leaf] cs _ _ (ChildrenRead_mono hle2 hleaf) hreads
      · simp only [List.length_cons]
        omega

/-- Complete subtrees of a layer are built and read as the byte ranges taken for them; when
at least one is asked for and input is left, at least one byte range is taken. -/
theorem Trickle.subtrees_builds
    (build : List Bytes → Store → Except Error (List Child × List Bytes × Store))
    (hb : Builds build 1) : ∀ (n : Nat), Builds (Trickle.subtrees build n) (min n 1) := by
  intro n
  induction n with
  | zero =>
    intro spl ds _
    exact ⟨[], spl, ds, [], by simp [Trickle.subtrees], rfl, ChildrenRead_nil ds,
      Store.Le_refl ds, by simp⟩
  | succ n ih =>
    intro spl ds hds
    cases spl with
    | nil =>
      exact ⟨[], [], ds, [], by simp [Trickle.subtrees], rfl, ChildrenRead_nil ds,
        Store.Le_refl ds, by simp⟩
    | cons chunk spl =>
      obtain ⟨sub, rest1, ds1, used1, hbuild, hsplit1, hreads1, hle1, hlen1⟩ :=
        hb (chunk :: spl) ds hds
      have hds1 := Store.NeverFails_of_le hle1 hds
      obtain ⟨ds2, child, hfin, hle2, hchild⟩ := finalize_ok ds1 sub _ hds1 hreads1
      obtain ⟨cs, rest2, ds3, used2, heq, hsplit2, hreads2, hle3, hlen2⟩ :=
        ih rest1 ds2 (Store.NeverFails_of_le hle2 hds1)
      refine ⟨child :: cs, rest2, ds3, used1 ++ used2, ?_, ?_, ?_,
        Store.Le_trans hle1 (Store.Le_trans hle2 hle3), ?_⟩
      · rw [Trickle.subtrees, hbuild]
        simp only [hfin, heq]
      · rw [List.append_assoc, ← hsplit2, ← hsplit1]
      · rw [List.flatten_append]
        exact @ChildrenRead_append ds3 [child] cs _ _ (ChildrenRead_mono hle3 hchild) hreads2
      · simp only [List.length_cons] at hlen1 ⊢
        omega

/-- With a positive fan-out bound, the children of a trickle node filled through layer `layer`
are built, read as the byte ranges taken for them, and take at least `layer + 1` byte ranges,
or all that are left. -/
theorem Trickle.fill_builds (maxlinks : Nat) (hpos : 0 < maxlinks) :
    ∀ (layer : Nat), Builds (Trickle.fill maxlinks layer) (layer + 1) := by
  intro layer
  induction layer with
  | zero =>
    intro spl ds hds
    obtain ⟨cs, rest, ds1, used, heq, hsplit, hreads, hle, hlen⟩ :=
      Trickle.leaves_builds maxlinks spl ds hds
    refine ⟨cs, rest, ds1, used, ?_, hsplit, hreads, hle, by omega⟩
    rw [Trickle.fill]
    exact heq
  | succ layer ih =>
    intro spl ds hds
    obtain ⟨low, rest, ds1, used1, heq1, hsplit1, hreads1, hle1, hlen1⟩ := ih spl ds hds
    obtain ⟨high, rest1, ds2, used2, heq2, hsplit2, hreads2, hle2, hlen2⟩ :=
      Trickle.subtrees_builds _ (Builds_of_le ih (by omega)) maxlinks rest ds1
        (Store.NeverFails_of_le hle1 hds)
    refine ⟨low ++ high, rest1, ds2, used1 ++ used2, ?_, ?_, ?_, Store.Le_trans hle1 hle2, ?_⟩
    · rw [Trickle.fill, heq1]
      simp only [heq2]
    · rw [List.append_assoc, ← hsplit2, ← hsplit1]
    · rw [List.flatten_append]
      exact ChildrenRead_append (ChildrenRead_mono hle2 hreads1) hreads2
    · have hmin : min maxlinks 1 = 1 := by omega
      rw [hmin] at hlen2
      omega

/-- Over a storage that never fails and with a chunker that ends cleanly, the trickle layout
with a positive fan-out bound returns a root that reads as the concatenation of the byte
ranges. -/
theorem Trickle.trickle_root_reads (db : DagBuilderHelper) (hpos : 0 < db.maxlinks)
    (hds : db.dserv.NeverFails) (herr : db.spl.err = none) :
    ∃ (root : DagNode) (ds1 : Store), Trickle.Layout db = .ok (root, ds1) ∧
      ∃ fuel, ∀ fuel1, fuel ≤ fuel1 →
        DagReader.ReadAll ds1 fuel1 root = some db.spl.chunks.flatten := by
  obtain ⟨cs, rest, ds1, used, hfill, hsplit, hreads, hle, hlen⟩ :=
    Trickle.fill_builds db.maxlinks hpos db.spl.chunks.length db.spl.chunks db.dserv hds
  have hrest : rest = [] := by
    apply List.eq_nil_of_length_eq_zero
    omega
  subst hrest
  rw [List.append_nil] at hsplit
  rw [← hsplit] at hreads
  obtain ⟨ds2, root, hfin, _, hroot⟩ :=
    finalize_ok ds1 cs _ (Store.NeverFails_of_le hle hds) hreads
  refine ⟨root.node, ds2, ?_, ReadAll_of_ChildrenRead ds2 root _ hroot⟩
  simp only [Trickle.Layout, hfill, herr, hfin]

/-- A read error of the chunker makes both builds fail with that error, whatever was stored:
no root is returned. -/
theorem BuildDag_chunker_error (DefaultLinksPerBlock : Nat) (hpos : 0 < DefaultLinksPerBlock)
    (ds : Store) (hds : ds.NeverFails) (spl : Splitter) (err : Error)
    (herr : spl.err = some err) :
    BuildDagFromReader DefaultLinksPerBlock ds spl = .error err ∧
    BuildTrickleDagFromReader DefaultLinksPerBlock ds spl = .error err := by
  constructor
  · obtain ⟨stack, ds1, hfill, _, _⟩ :=
      Balanced.fill_ok DefaultLinksPerBlock spl.chunks [] ds [] hds rfl
    simp only [BuildDagFromReader, DagBuilderParams.New, Balanced.Layout, hfill, herr]
  · obtain ⟨cs, rest, ds1, used, hfill, _, _, _, _⟩ :=
      Trickle.fill_builds DefaultLinksPerBlock hpos spl.chunks.length spl.chunks ds hds
    simp only [BuildTrickleDagFromReader, DagBuilderParams.New, Trickle.Layout, hfill, herr]

/-- A storage that refuses the write of the first leaf makes both builds fail with the error
of the storage: no root is returned. -/
theorem BuildDag_storage_error :
    BuildDagFromReader 2 ⟨[], fun _ _ => some (.external 7)⟩ ⟨[[1, 2], [3]], none⟩
      = .error (.external 7) ∧
    BuildTrickleDagFromReader 2 ⟨[], fun _ _ => some (.external 7)⟩ ⟨[[1, 2], [3]], none⟩
      = .error (.external 7) ∧
    BuildDagFromReader 2 ⟨[], fun _ _ => some (.external 7)⟩ ⟨[], none⟩
      = .error (.external 7) :=
  ⟨rfl, rfl, rfl⟩

/-- The reader aborts on a node whose declared size does not match its payload, and on a node
whose declared size does not match the sizes of its links. -/
theorem DagReader.read_size_mismatch (ds : Store) (fuel : Nat) :
    DagReader.read ds fuel (.FileNode 5 [1, 2] []) = none ∧
    DagReader.read ds (fuel + 1) (.FileNode 5 [] [⟨[], 2, 0⟩]) = none := by
  constructor
  · cases fuel <;> simp [DagReader.read]
  · simp [DagReader.read]

/-- C9: for every byte sequence `b` and every chunking of it by a chunker that ends cleanly,
with a positive `DefaultLinksPerBlock` and over any storage whose writes do not fail, the
balanced and the trickle build both succeed: each returns a root node and no error, and reading
that root back with the DAG reader over the storage as the build left it gives exactly `b`, for
every depth bound from some bound on. -/
theorem BuildDag_roundtrip (DefaultLinksPerBlock : Nat) (hpos : 0 < DefaultLinksPerBlock)
    (ds : Store) (hds : ds.NeverFails) (b : Bytes) (spl : Splitter) (hclean : spl.err = none)
    (hchunks : spl.chunks.flatten = b) :
    (∃ (root : DagNode) (ds1 : Store),
      BuildDagFromReader DefaultLinksPerBlock ds spl = .ok (root, ds1) ∧
      ∃ fuel, ∀ fuel1, fuel ≤ fuel1 → DagReader.ReadAll ds1 fuel1 root = some b) ∧
    (∃ (root : DagNode) (ds1 : Store),
      BuildTrickleDagFromReader DefaultLinksPerBlock ds spl = .ok (root, ds1) ∧
      ∃ fuel, ∀ fuel1, fuel ≤ fuel1 → DagReader.ReadAll ds1 fuel1 root = some b) := by
  subst hchunks
  constructor
  · exact Balanced.balanced_root_reads (DagBuilderParams.New ⟨ds, DefaultLinksPerBlock⟩ spl)
      hds hclean
  · exact Trickle.trickle_root_reads (DagBuilderParams.New ⟨ds, DefaultLinksPerBlock⟩ spl)
      hpos hds hclean

theorem BuildDag_roundtrip_witness :
    (∃ (root : DagNode) (ds1 : Store),
      BuildDagFromReader 2 ⟨[], fun _ _ => none⟩ ⟨[[1, 2], [3], [4, 5]], none⟩
        = .ok (root, ds1) ∧
      ∃ fuel, ∀ fuel1, fuel ≤ fuel1 →
        DagReader.ReadAll ds1 fuel1 root = some [1, 2, 3, 4, 5]) ∧
    (∃ (root : DagNode) (ds1 : Store),
      BuildTrickleDagFromReader 2 ⟨[], fun _ _ => none⟩ ⟨[[1, 2], [3], [4, 5]], none⟩
        = .ok (root, ds1) ∧
      ∃ fuel, ∀ fuel1, fuel ≤ fuel1 →
        DagReader.ReadAll ds1 fuel1 root = some [1, 2, 3, 4, 5]) :=
  BuildDag_roundtrip 2 (by decide) ⟨[], fun _ _ => none⟩ (fun _ _ => rfl) [1, 2, 3, 4, 5]
    ⟨[[1, 2], [3], [4, 5]], none⟩ rfl (by decide)

end Unixfs
